import Mathlib

/-!
Verification development for the search engine of the
obsidian-global-search-shortcut repository.

The embedding models `SearchService` from `src/views/SearchWindowView.ts`
(the Fuse-based variant with result cache, filename index and batched
content scanning).  Text is modelled at the level of `List Char`
(JavaScript strings are sequences of code units; all operations used by
the source are per-character).  JavaScript numbers that carry scores are
modelled as rationals; timestamps are naturals.  The Fuse.js library is
external to the repository, so it is abstracted as a function from the
indexed data and the query to a list of (path, distance) candidates, as
the design notes of the system prescribe for any substituted fuzzy
matcher.  The JavaScript `Map` underlying the result cache is modelled
as an insertion-ordered association list: `set` overwrites in place,
a fresh key is appended at the end, and `keys().next()` is the head.
All recursive functions are written with structural recursion (fuel
where needed) so that every definition evaluates by kernel reduction.
-/

/-- Constant `SNIPPET_CONTEXT_LENGTH` of the source: characters of
context kept before/after the matched line in a snippet. -/
def SNIPPET_CONTEXT_LENGTH : Nat := 40

/-- Constant `CACHE_TTL` of the source: cached results live 30000 ms. -/
def CACHE_TTL : Nat := 30000

/-- Constant `MAX_CACHE_SIZE` of the source: at most 50 cached queries. -/
def MAX_CACHE_SIZE : Nat := 50

/-- Constant `INDEX_UPDATE_INTERVAL` of the source: the filename index
is rebuilt when it is at least 5000 ms old. -/
def INDEX_UPDATE_INTERVAL : Nat := 5000

/-- Constant `MAX_INDEX_SIZE` of the source: at most 5000 files are
indexed. -/
def MAX_INDEX_SIZE : Nat := 5000

/-- Constant `CONTENT_SEARCH_BATCH_SIZE` of the source: files are read
in batches of 20. -/
def CONTENT_SEARCH_BATCH_SIZE : Nat := 20

/-- The backtick character (code point 96), used by the inline-code
rule of the markup stripper. -/
def backtickChar : Char := Char.ofNat 96

/-- JavaScript `\s` on the characters the model can contain: space,
tab, newline, carriage return, vertical tab, form feed. -/
def jsWS (c : Char) : Bool :=
  c == ' ' || c == '\t' || c == '\n' || c == '\r' || c == '\x0b' || c == '\x0c'

/-- JavaScript line terminators excluded by `.` in a regex without the
`s` flag (the astral plane separators cannot appear in our inputs). -/
def lineTerm (c : Char) : Bool := c == '\n' || c == '\r'

/-- Maximal run of characters satisfying `p` together with the rest:
the deterministic core of a greedy character-class match. -/
def spanP (p : Char → Bool) (l : List Char) : List Char × List Char :=
  (l.takeWhile p, l.dropWhile p)

/-- Lowercasing a character sequence, as `toLowerCase()` does for the
code points our model manipulates. -/
def toLowerL (l : List Char) : List Char := l.map Char.toLower

/-- Whether `needle` occurs at the very beginning of `hay`. -/
def matchesAt : List Char → List Char → Bool
  | [], _ => true
  | _ :: _, [] => false
  | a :: n, b :: h => a == b && matchesAt n h

/-- Auxiliary scan for `occursIdx`, carrying the current offset. -/
def occursIdxAux (needle : List Char) : Nat → List Char → Option Nat
  | pos, [] => if matchesAt needle [] then some pos else none
  | pos, c :: t =>
    if matchesAt needle (c :: t) then some pos else occursIdxAux needle (pos + 1) t

/-- Index of the first occurrence of `needle` in `hay`; the model of
JavaScript `String.prototype.indexOf` (with `none` for `-1`). -/
def occursIdx (needle hay : List Char) : Option Nat := occursIdxAux needle 0 hay

/-- Auxiliary scan for `collapseNL`: the flag records whether we are
inside a run of newlines already replaced by one space. -/
def collapseNLAux : Bool → List Char → List Char
  | _, [] => []
  | inRun, c :: rest =>
    if c == '\n' then
      (if inRun then collapseNLAux true rest else ' ' :: collapseNLAux true rest)
    else c :: collapseNLAux false rest

/-- The model of `replace(/\n+/g, ' ')`: every maximal run of newline
characters becomes a single space. -/
def collapseNL (l : List Char) : List Char := collapseNLAux false l

/-- The model of `String.prototype.trim`: whitespace removed from both
ends. -/
def trimChars (l : List Char) : List Char :=
  (((l.dropWhile jsWS).reverse).dropWhile jsWS).reverse

/-- Decimal digit characters. -/
def digitChar (d : Nat) : Char :=
  match d with
  | 0 => '0' | 1 => '1' | 2 => '2' | 3 => '3' | 4 => '4'
  | 5 => '5' | 6 => '6' | 7 => '7' | 8 => '8' | _ => '9'

/-- Numeric value of a decimal digit character (0 for non-digits). -/
def digitVal (c : Char) : Nat :=
  match c with
  | '0' => 0 | '1' => 1 | '2' => 2 | '3' => 3 | '4' => 4
  | '5' => 5 | '6' => 6 | '7' => 7 | '8' => 8 | '9' => 9
  | _ => 0

/-- Least-significant-first decimal digits of `n`, with fuel for
structural recursion (any fuel above `n` is enough). -/
def natReprAux : Nat → Nat → List Char
  | 0, _ => []
  | fuel + 1, n =>
    if n < 10 then [digitChar n] else digitChar (n % 10) :: natReprAux fuel (n / 10)

/-- Decimal rendering of a natural number, the model of JavaScript
template interpolation of the `limit` number. -/
def natRepr (n : Nat) : String := ⟨(natReprAux (n + 1) n).reverse⟩

/-- Rule 1 of `stripMarkdown`: piped wikilink.  A greedy character
class followed by a mandatory delimiter is deterministic, so each
regex rule is rendered as a direct scanner, returning the replacement
text and the remaining input on a match at the head. -/
def tryWikiAlias : List Char → Option (List Char × List Char)
  | '[' :: '[' :: r =>
    match spanP (fun c => !(c == ']' || c == '|')) r with
    | (_ :: _, '|' :: r2) =>
      (match spanP (fun c => !(c == ']')) r2 with
       | (g2@(_ :: _), ']' :: ']' :: r4) => some (g2, r4)
       | _ => none)
    | _ => none
  | _ => none

/-- Rule 2 of `stripMarkdown`: bare wikilink. -/
def tryWikiBare : List Char → Option (List Char × List Char)
  | '[' :: '[' :: r =>
    match spanP (fun c => !(c == ']')) r with
    | (g@(_ :: _), ']' :: ']' :: r2) => some (g, r2)
    | _ => none
  | _ => none

/-- Lazy scan for the closing two-character delimiter `dd`, failing on
a line terminator (the `.` of the regex does not cross lines). -/
def findClose2 (d : Char) : List Char → Option (List Char × List Char)
  | a :: b :: rest =>
    if a == d && b == d then some ([], rest)
    else if lineTerm a then none
    else
      match findClose2 d (b :: rest) with
      | some (g, r) => some (a :: g, r)
      | none => none
  | _ => none

/-- Lazy scan for a closing one-character delimiter `d`, failing on a
line terminator. -/
def findClose1 (d : Char) : List Char → Option (List Char × List Char)
  | [] => none
  | a :: rest =>
    if a == d then some ([], rest)
    else if lineTerm a then none
    else
      match findClose1 d rest with
      | some (g, r) => some (a :: g, r)
      | none => none

/-- Rule 3 of `stripMarkdown`: bold with matching double delimiter. -/
def tryBold : List Char → Option (List Char × List Char)
  | '*' :: '*' :: r => findClose2 '*' r
  | '_' :: '_' :: r => findClose2 '_' r
  | _ => none

/-- Rule 4 of `stripMarkdown`: italic with matching single delimiter. -/
def tryItalic : List Char → Option (List Char × List Char)
  | '*' :: r => findClose1 '*' r
  | '_' :: r => findClose1 '_' r
  | _ => none

/-- Rule 5 of `stripMarkdown`: strikethrough. -/
def tryStrike : List Char → Option (List Char × List Char)
  | '~' :: '~' :: r => findClose2 '~' r
  | _ => none

/-- Rule 6 of `stripMarkdown`: inline code between backticks. -/
def tryCode : List Char → Option (List Char × List Char)
  | c :: r =>
    if c == backtickChar then
      match spanP (fun x => !(x == backtickChar)) r with
      | (g@(_ :: _), c2 :: r2) => if c2 == backtickChar then some (g, r2) else none
      | _ => none
    else none
  | _ => none

/-- Rule 7 of `stripMarkdown`: image, replaced by its alt text (the
alt may be empty); runs before the link rule in the source. -/
def tryImage : List Char → Option (List Char × List Char)
  | '!' :: '[' :: r =>
    match spanP (fun c => !(c == ']')) r with
    | (alt, ']' :: '(' :: r2) =>
      (match spanP (fun c => !(c == ')')) r2 with
       | (_ :: _, ')' :: r4) => some (alt, r4)
       | _ => none)
    | _ => none
  | _ => none

/-- Rule 8 of `stripMarkdown`: link, replaced by its text. -/
def tryLink : List Char → Option (List Char × List Char)
  | '[' :: r =>
    match spanP (fun c => !(c == ']')) r with
    | (txt@(_ :: _), ']' :: '(' :: r2) =>
      (match spanP (fun c => !(c == ')')) r2 with
       | (_ :: _, ')' :: r4) => some (txt, r4)
       | _ => none)
    | _ => none
  | _ => none

/-- Rule 9 of `stripMarkdown`: heading marker at line start (1 to 6
hash signs followed by whitespace, the whitespace consumed greedily).
Returns whether the consumed text ends in a line terminator (so the
scanner knows whether the next position is again a line start). -/
def tryHeading (l : List Char) : Option (Bool × List Char) :=
  match spanP (fun c => c == '#') l with
  | ([], _) => none
  | (hs, r) =>
    if 6 < hs.length then none
    else
      match spanP jsWS r with
      | ([], _) => none
      | (ws, r2) => some (lineTerm (ws.getLastD ' '), r2)

/-- Rule 10 of `stripMarkdown`: unordered list marker at line start
(optional leading whitespace, one of `-` `*` `+`, then whitespace). -/
def tryBullet (l : List Char) : Option (Bool × List Char) :=
  match spanP jsWS l with
  | (_, m :: r2) =>
    if m == '-' || m == '*' || m == '+' then
      match spanP jsWS r2 with
      | ([], _) => none
      | (ws, r3) => some (lineTerm (ws.getLastD ' '), r3)
    else none
  | (_, []) => none

/-- Rule 11 of `stripMarkdown`: ordered list marker at line start
(optional leading whitespace, digits, a dot, then whitespace). -/
def tryOrdered (l : List Char) : Option (Bool × List Char) :=
  match spanP jsWS l with
  | (_, r) =>
    match spanP Char.isDigit r with
    | (_ :: _, '.' :: r3) =>
      (match spanP jsWS r3 with
       | ([], _) => none
       | (ws, r4) => some (lineTerm (ws.getLastD ' '), r4))
    | _ => none

/-- One global find-replace pass: at each position try the rule; on a
match emit its replacement and continue after the consumed text, else
keep the character.  Fuel at least the length of the input makes the
scan total (every rule consumes at least one character). -/
def runRule (rule : List Char → Option (List Char × List Char)) : Nat → List Char → List Char
  | 0, l => l
  | _ + 1, [] => []
  | fuel + 1, c :: cs =>
    match rule (c :: cs) with
    | some (emit, rest) => emit ++ runRule rule fuel rest
    | none => c :: runRule rule fuel cs

/-- One global multiline pass for the `^`-anchored rules: the rule is
only tried at line starts; its replacement is empty. -/
def runLineRule (rule : List Char → Option (Bool × List Char)) : Nat → Bool → List Char → List Char
  | 0, _, l => l
  | _ + 1, _, [] => []
  | fuel + 1, atLS, c :: cs =>
    if atLS then
      match rule (c :: cs) with
      | some (nls, rest) => runLineRule rule fuel nls rest
      | none => c :: runLineRule rule fuel (lineTerm c) cs
    else c :: runLineRule rule fuel (lineTerm c) cs

/-- The markup stripper `stripMarkdown` of the source: the eleven
global rewrite rules applied in the source's order (wikilinks, bold,
italic, strikethrough, inline code, image before link, then the three
line-anchored marker rules). -/
def stripMarkdown (text : String) : String :=
  let l0 := text.data
  let l1 := runRule tryWikiAlias l0.length l0
  let l2 := runRule tryWikiBare l1.length l1
  let l3 := runRule tryBold l2.length l2
  let l4 := runRule tryItalic l3.length l3
  let l5 := runRule tryStrike l4.length l4
  let l6 := runRule tryCode l5.length l5
  let l7 := runRule tryImage l6.length l6
  let l8 := runRule tryLink l7.length l7
  let l9 := runLineRule tryHeading l8.length true l8
  let l10 := runLineRule tryBullet l9.length true l9
  let l11 := runLineRule tryOrdered l10.length true l10
  ⟨l11⟩

/-- The backward scan of `getContextSnippet`: from `matchIndex` to the
start of the containing line. -/
def scanLineStart (c : List Char) : Nat → Nat
  | 0 => 0
  | i + 1 => if c.getD i ' ' == '\n' then i + 1 else scanLineStart c i

/-- The forward scan of `getContextSnippet`: from a position to the
end of the containing line (fuel at least `c.length` is enough). -/
def scanLineEndAux (c : List Char) : Nat → Nat → Nat
  | 0, j => j
  | fuel + 1, j =>
    if j < c.length then
      (if c.getD j ' ' == '\n' then j else scanLineEndAux c fuel (j + 1))
    else j

/-- Three dots, the ellipsis marker of the snippet extractor. -/
def dots : List Char := ['.', '.', '.']

/-- The snippet extractor `getContextSnippet` of the source: expand the
match to its line, add up to `SNIPPET_CONTEXT_LENGTH` characters on
each side clamped to the document, collapse newline runs to a space,
trim, and add ellipses on the sides that were cut. -/
def getContextSnippet (content : String) (matchIndex : Nat) (query : String) : String :=
  let c := content.data
  let lineStart := scanLineStart c matchIndex
  let lineEnd := scanLineEndAux c c.length (matchIndex + query.length)
  let start := lineStart - SNIPPET_CONTEXT_LENGTH
  let stop := min c.length (lineEnd + SNIPPET_CONTEXT_LENGTH)
  let snip := trimChars (collapseNL ((c.drop start).take (stop - start)))
  ⟨(if 0 < start then dots else []) ++ snip ++ (if stop < c.length then dots else [])⟩

/-- Spec-side name for the left excerpt boundary of the snippet: the
start of the matched line minus the context length, clamped at the
document start. -/
def snipStart (content : String) (matchIndex : Nat) : Nat :=
  scanLineStart content.data matchIndex - SNIPPET_CONTEXT_LENGTH

/-- Spec-side name for the right excerpt boundary of the snippet: the
end of the matched line plus the context length, clamped at the
document end. -/
def snipStop (content : String) (matchIndex : Nat) (query : String) : Nat :=
  min content.data.length
    (scanLineEndAux content.data content.data.length (matchIndex + query.length) +
      SNIPPET_CONTEXT_LENGTH)

/-- Spec-side name for the snippet body: the excerpt between the two
boundaries with newline runs collapsed and the ends trimmed. -/
def snipCore (content : String) (matchIndex : Nat) (query : String) : List Char :=
  trimChars (collapseNL
    ((content.data.drop (snipStart content matchIndex)).take
      (snipStop content matchIndex query - snipStart content matchIndex)))

/-- A vault file as the search service sees it: path, full name, base
name, modification time, and its content (`none` when the read of this
file fails, which the source catches per file). -/
structure VFile where
  path : String
  name : String
  basename : String
  mtime : Nat
  content : Option String
deriving DecidableEq

/-- The `FileIndex` projection of the source, the data the fuzzy index
is built from. -/
structure FileIndex where
  path : String
  name : String
  basename : String
deriving DecidableEq

/-- The `SearchResult` record of the source. -/
structure SearchResult where
  path : String
  name : String
  score : ℚ
  snippet : String
deriving DecidableEq

/-- The `CachedSearchResult` record of the source. -/
structure CachedSearchResult where
  results : List SearchResult
  timestamp : Nat
deriving DecidableEq

/-- The mutable fields of the `SearchService` class: the built index
(modelled by the indexed data), its build time, and the result cache as
an insertion-ordered association list (the JavaScript `Map`). -/
structure SearchServiceState where
  fileIndex : Option (List FileIndex)
  lastIndexUpdate : Nat
  searchCache : List (String × CachedSearchResult)
deriving DecidableEq

/-- The document collaborator: the vault's current markdown files, and
whether enumerating them succeeds (`getMarkdownFiles` is the only
call the source leaves unguarded). -/
structure Vault where
  files : List VFile
  enumOk : Bool
deriving DecidableEq

/-- The abstracted Fuse.js search: from the indexed data and a query, an
ordered candidate list of (path, distance in [0,1]); the design notes
of the system treat the exact algorithm as replaceable. -/
abbrev FuseAlg := List FileIndex → String → List (String × ℚ)

/-- The observable outcome of one `searchInFiles` call: the returned
results, the service state afterwards, and the paths whose content the
call read (in order). -/
structure SearchOutcome where
  results : List SearchResult
  state : SearchServiceState
  reads : List String
deriving DecidableEq

/-- Insert `a` into `l` keeping every strictly greater element (per
`gtB`) before it: the insertion step of a stable descending sort. -/
def insDesc {α : Type} (gtB : α → α → Bool) (a : α) : List α → List α
  | [] => [a]
  | b :: bs => if gtB b a then b :: insDesc gtB a bs else a :: b :: bs

/-- Stable descending insertion sort.  JavaScript `Array.prototype.sort`
is stable, and a stable sort for a fixed total preorder is unique, so
this models the source's comparator sorts exactly. -/
def sortDesc {α : Type} (gtB : α → α → Bool) : List α → List α
  | [] => []
  | a :: as => insDesc gtB a (sortDesc gtB as)

/-- The source's `sort((a, b) => b.stat.mtime - a.stat.mtime)`. -/
def sortByMtime (files : List VFile) : List VFile :=
  sortDesc (fun b a => decide (a.mtime < b.mtime)) files

/-- The source's `sort((a, b) => b.score - a.score)`. -/
def sortByScore (l : List SearchResult) : List SearchResult :=
  sortDesc (fun b a => decide (a.score < b.score)) l

/-- First-match lookup in the association-list cache (`Map.get`). -/
def lookupCache : List (String × CachedSearchResult) → String → Option CachedSearchResult
  | [], _ => none
  | (k, v) :: rest, key => if k == key then some v else lookupCache rest key

/-- The model of `Map.set`: overwrite in place when the key exists,
else append. -/
def setCache : List (String × CachedSearchResult) → String → CachedSearchResult →
    List (String × CachedSearchResult)
  | [], key, e => [(key, e)]
  | (k, v) :: rest, key, e =>
    if k == key then (k, e) :: rest else (k, v) :: setCache rest key e

/-- The cache write of `searchInFiles`: `set`, then if the size exceeds
`MAX_CACHE_SIZE`, delete the first (oldest-inserted) key. -/
def cachePut (cache : List (String × CachedSearchResult)) (key : String)
    (e : CachedSearchResult) : List (String × CachedSearchResult) :=
  let c := setCache cache key e
  if MAX_CACHE_SIZE < c.length then c.tail else c

/-- The cache read of `searchInFiles`: an entry is returned only when
it is younger than `CACHE_TTL`. -/
def cacheGet (cache : List (String × CachedSearchResult)) (key : String) (now : Nat) :
    Option (List SearchResult) :=
  match lookupCache cache key with
  | some e => if now - e.timestamp < CACHE_TTL then some e.results else none
  | none => none

/-- The composite cache key of the source, the template
string of the query and the limit joined by a colon. -/
def cacheKey (query : String) (limit : Nat) : String :=
  query ++ ":" ++ natRepr limit

/-- The index data built by `updateFileIndex`: files sorted by
modification time descending, truncated to `MAX_INDEX_SIZE`, projected
to the `FileIndex` fields. -/
def mkFileIndex (files : List VFile) : List FileIndex :=
  ((sortByMtime files).take MAX_INDEX_SIZE).map (fun f => ⟨f.path, f.name, f.basename⟩)

/-- The `updateFileIndex` method of the source: keep a fresh index,
otherwise enumerate the vault (which may throw) and rebuild. -/
def updateFileIndex (vault : Vault) (st : SearchServiceState) (now : Nat) :
    Except Unit SearchServiceState :=
  if st.fileIndex.isSome && decide (now - st.lastIndexUpdate < INDEX_UPDATE_INTERVAL) then
    .ok st
  else if vault.enumOk then
    .ok ⟨some (mkFileIndex vault.files), now, st.searchCache⟩
  else .error ()

/-- The filename phase of `searchInFiles`: the first `limit` fuzzy
candidates, resolved against the vault (`getAbstractFileByPath`), each
mapped to a result with score `(1 - distance) * 1000` and an empty
snippet. -/
def filenamePhase (vault : Vault) (hits : List (String × ℚ)) (limit : Nat) :
    List SearchResult :=
  (hits.take limit).filterMap (fun h =>
    (vault.files.find? (fun f => f.path == h.1)).map (fun f =>
      ⟨f.path, f.basename, (1 - h.2) * 1000, ""⟩))

/-- The per-file step of the content scan: read the content (a failed
read is absorbed as no match), strip markup, and search the query
case-insensitively; on a match produce the context snippet. -/
def fileSnippet (query : String) (f : VFile) : Option String :=
  match f.content with
  | none => none
  | some body =>
    let stripped := stripMarkdown body
    match occursIdx (toLowerL query.data) (toLowerL stripped.data) with
    | none => none
    | some i => some (getContextSnippet stripped i query)

/-- The merge rule of the content scan for a path already found by the
filename phase: raise the first matching entry's score to the content
score when that is higher, and backfill an empty snippet. -/
def updateFirst (p : String) (snip : String) : List SearchResult → List SearchResult
  | [] => []
  | r :: rs =>
    if r.path == p then
      ⟨r.path, r.name, (if r.score < 800 then 800 else r.score),
        (if r.snippet == "" then snip else r.snippet)⟩ :: rs
    else r :: updateFirst p snip rs

/-- One batch of the content scan: each file's outcome is computed
against the paths found before the batch started; already-found paths
update the working list in place, new matches are collected as
candidates in batch order. -/
def applyBatch (query : String) (found : List String) :
    List VFile → List SearchResult → List SearchResult × List SearchResult
  | [], results => (results, [])
  | f :: fs, results =>
    match fileSnippet query f with
    | none => applyBatch query found fs results
    | some snip =>
      if found.contains f.path then
        applyBatch query found fs (updateFirst f.path snip results)
      else
        let rest := applyBatch query found fs results
        (rest.1, ⟨f.path, f.basename, 800, snip⟩ :: rest.2)

/-- Folding a batch's candidates into the working list: push each one,
stopping as soon as the list has reached the limit. -/
def pushResults (limit : Nat) : List SearchResult → List SearchResult → List SearchResult
  | results, [] => results
  | results, c :: cs =>
    let r := results ++ [c]
    if limit ≤ r.length then r else pushResults limit r cs

/-- The batch loop of the content scan: while the working list is below
the limit, take a batch, process it, fold its candidates, and record
the paths read.  Fuel at least the number of files is enough. -/
def contentLoopAux (query : String) (limit : Nat) :
    Nat → List VFile → List SearchResult → List SearchResult × List String
  | 0, _, results => (results, [])
  | _ + 1, [], results => (results, [])
  | fuel + 1, f :: fs, results =>
    if limit ≤ results.length then (results, [])
    else
      let batch := (f :: fs).take CONTENT_SEARCH_BATCH_SIZE
      let rest := (f :: fs).drop CONTENT_SEARCH_BATCH_SIZE
      let step := applyBatch query (results.map (fun r => r.path)) batch results
      let results2 := pushResults limit step.1 step.2
      let cont := contentLoopAux query limit fuel rest results2
      (cont.1, batch.map (fun x => x.path) ++ cont.2)

/-- The content scan over a file list starting from the filename-phase
working list. -/
def contentLoop (query : String) (limit : Nat) (files : List VFile)
    (results : List SearchResult) : List SearchResult × List String :=
  contentLoopAux query limit files.length files results

/-- The working list after the filename phase: empty when no index
exists (the source guards on `this.fileIndex`). -/
def wResults (fuse : FuseAlg) (vault : Vault) (fileIndex : Option (List FileIndex))
    (query : String) (limit : Nat) : List SearchResult :=
  match fileIndex with
  | some idx => filenamePhase vault (fuse idx query) limit
  | none => []

/-- The pre-ranking computation of a cache miss: filename phase (when
an index exists) followed by the content scan over all files sorted by
modification time descending. -/
def coreResults (fuse : FuseAlg) (vault : Vault) (fileIndex : Option (List FileIndex))
    (query : String) (limit : Nat) : List SearchResult × List String :=
  contentLoop query limit (sortByMtime vault.files)
    (wResults fuse vault fileIndex query limit)

/-- The cache-miss path of `searchInFiles`: refresh the index, compute
the working results, rank (stable sort descending by score), truncate
to the limit, and store in the cache keyed by query and limit.  The
second vault enumeration (for the content scan) may also throw. -/
def searchMiss (fuse : FuseAlg) (vault : Vault) (st : SearchServiceState)
    (query : String) (limit : Nat) (now : Nat) : Except Unit SearchOutcome :=
  match updateFileIndex vault st now with
  | .error e => .error e
  | .ok st1 =>
    if vault.enumOk then
      let rr := coreResults fuse vault st1.fileIndex query limit
      let final := (sortByScore rr.1).take limit
      .ok ⟨final,
        ⟨st1.fileIndex, st1.lastIndexUpdate,
          cachePut st1.searchCache (cacheKey query limit) ⟨final, now⟩⟩,
        rr.2⟩
    else .error ()

/-- The `searchInFiles` method of the source: empty-query short
circuit, cache check, and otherwise the full miss path. -/
def searchInFiles (fuse : FuseAlg) (vault : Vault) (st : SearchServiceState)
    (query : String) (limit : Nat) (now : Nat) : Except Unit SearchOutcome :=
  if query = "" then .ok ⟨[], st, []⟩
  else
    match cacheGet st.searchCache (cacheKey query limit) now with
    | some results => .ok ⟨results, st, []⟩
    | none => searchMiss fuse vault st query limit now

/-- The filename-phase working list of a (hypothetical) miss at the
given call, used to state claims about the orchestration. -/
def missFilenameResults (fuse : FuseAlg) (vault : Vault) (st : SearchServiceState)
    (query : String) (limit : Nat) (now : Nat) : List SearchResult :=
  match updateFileIndex vault st now with
  | .error _ => []
  | .ok st1 => wResults fuse vault st1.fileIndex query limit

/-- The full pre-ranking working list of a (hypothetical) miss at the
given call. -/
def missWorkingResults (fuse : FuseAlg) (vault : Vault) (st : SearchServiceState)
    (query : String) (limit : Nat) (now : Nat) : List SearchResult :=
  match updateFileIndex vault st now with
  | .error _ => []
  | .ok st1 => (coreResults fuse vault st1.fileIndex query limit).1

/-- The results component of a call outcome (`none` when the call
threw). -/
def resultsOf : Except Unit SearchOutcome → Option (List SearchResult)
  | .ok o => some o.results
  | .error _ => none

/-- Removing every entry of a key from the cache, used to compare a
call against the same call with the entry absent. -/
def removeKey (cache : List (String × CachedSearchResult)) (key : String) :
    List (String × CachedSearchResult) :=
  cache.filter (fun p => !(p.1 == key))

/-- Results sorted by non-increasing score. -/
def sortedByScore (l : List SearchResult) : Prop :=
  List.Pairwise (fun a b => b.score ≤ a.score) l

/-- No two results share a path. -/
def nodupPaths (l : List SearchResult) : Prop :=
  (l.map (fun r => r.path)).Nodup

/-- A conforming fuzzy matcher returns each indexed item at most once
(Fuse.js scores each item once). -/
def FuseWF (fuse : FuseAlg) : Prop :=
  ∀ idx q, ((fuse idx q).map Prod.fst).Nodup

/-- States reachable by operating the service: every cached entry is a
previously returned result set, hence sorted, within its key's limit,
and path-deduplicated. -/
def CacheWF (st : SearchServiceState) : Prop :=
  ∀ q n e, lookupCache st.searchCache (cacheKey q n) = some e →
    sortedByScore e.results ∧ e.results.length ≤ n ∧ nodupPaths e.results

/-- Value of a least-significant-first digit sequence. -/
def valOfDigits : List Char → Nat
  | [] => 0
  | c :: r => digitVal c + 10 * valOfDigits r

/-- First result carrying a given path. -/
def findByPath (p : String) : List SearchResult → Option SearchResult
  | [] => none
  | r :: rs => if r.path == p then some r else findByPath p rs

/-- A fuzzy matcher with no candidates (a query matching no filename). -/
def fuse0 : FuseAlg := fun _ _ => []

/-- The initial service state: no index, no cache. -/
def st0 : SearchServiceState := ⟨none, 0, []⟩

/-- A sample file whose content contains a run of spaces. -/
def fileA : VFile := ⟨"a.md", "a.md", "a", 0, some "x   y"⟩

/-- A sample vault with one file and working enumeration. -/
def vaultA : Vault := ⟨[fileA], true⟩

/-- A vault whose document enumeration throws. -/
def vaultBad : Vault := ⟨[], false⟩

/-- A file whose name matches a markup-laden query exactly and whose raw
content contains the query, while its stripped content does not. -/
def fileH : VFile := ⟨"_hi_.md", "_hi_.md", "_hi_", 0, some "say _hi_ now"⟩

/-- The vault holding `fileH`. -/
def vaultH : Vault := ⟨[fileH], true⟩

/-- A matcher resolving the query to `fileH` with a perfect distance,
as Fuse.js does for an exact basename match. -/
def fuseH : FuseAlg := fun _ _ => [("_hi_.md", 0)]

/-- A file whose name and content both match a plain query. -/
def fileM : VFile := ⟨"m.md", "m.md", "m", 0, some "hello world"⟩

/-- The vault holding `fileM`. -/
def vaultM : Vault := ⟨[fileM], true⟩

/-- A matcher resolving the query to `fileM` with a perfect distance. -/
def fuseM : FuseAlg := fun _ _ => [("m.md", 0)]

/-- The empty vault (a mutated document set with every file removed). -/
def vaultEmpty : Vault := ⟨[], true⟩

/-- The outcome of searching "x" over `vaultA` from the initial state. -/
def outX : SearchOutcome :=
  ⟨[⟨"a.md", "a", 800, "x   y"⟩],
    ⟨some [⟨"a.md", "a.md", "a"⟩], 0,
      [("x:5", ⟨[⟨"a.md", "a", 800, "x   y"⟩], 0⟩)]⟩,
    ["a.md"]⟩

/-- The outcome of searching "hello" over `vaultM` from the initial
state: the filename hit merged with the content match (the score
expression is left in the source's unevaluated form). -/
def outM : SearchOutcome :=
  ⟨[⟨"m.md", "m", (if ((1 : ℚ) - 0) * 1000 < 800 then (800 : ℚ) else (1 - 0) * 1000),
      "hello world"⟩],
    ⟨some [⟨"m.md", "m.md", "m"⟩], 0,
      [("hello:5", ⟨[⟨"m.md", "m",
        (if ((1 : ℚ) - 0) * 1000 < 800 then (800 : ℚ) else (1 - 0) * 1000),
        "hello world"⟩], 0⟩)]⟩,
    ["m.md"]⟩

/-- The outcome of searching "_hi_" over `vaultH` with limit 1: the
filename phase fills the limit, so nothing is read. -/
def outC10 : SearchOutcome :=
  ⟨[⟨"_hi_.md", "_hi_", (1 - 0) * 1000, ""⟩],
    ⟨some [⟨"_hi_.md", "_hi_.md", "_hi_"⟩], 0,
      [("_hi_:1", ⟨[⟨"_hi_.md", "_hi_", (1 - 0) * 1000, ""⟩], 0⟩)]⟩,
    []⟩

theorem digitVal_digitChar {d : Nat} (h : d < 10) : digitVal (digitChar d) = d := by
  interval_cases d <;> rfl

theorem valOfDigits_natReprAux :
    ∀ fuel n, n < fuel → valOfDigits (natReprAux fuel n) = n := by
  intro fuel
  induction fuel with
  | zero => intro n h; omega
  | succ f ih =>
    intro n h
    unfold natReprAux
    by_cases h10 : n < 10
    · simp only [h10, if_true, valOfDigits]
      rw [digitVal_digitChar h10]
      omega
    · simp only [h10, if_false, valOfDigits]
      have hdiv : n / 10 < f := by
        have h2 := Nat.div_lt_self (by omega : 0 < n) (by omega : 1 < 10)
        omega
      rw [ih _ hdiv, digitVal_digitChar (Nat.mod_lt _ (by omega))]
      omega

theorem natReprAux_inj {m n : Nat}
    (h : natReprAux (m + 1) m = natReprAux (n + 1) n) : m = n := by
  have hm := valOfDigits_natReprAux (m + 1) m (Nat.lt_succ_self m)
  have hn := valOfDigits_natReprAux (n + 1) n (Nat.lt_succ_self n)
  rw [h, hn] at hm
  omega

theorem digitChar_ne_colon (d : Nat) : digitChar d ≠ ':' := by
  unfold digitChar
  split <;> decide

theorem natReprAux_ne_colon :
    ∀ fuel n c, c ∈ natReprAux fuel n → c ≠ ':' := by
  intro fuel
  induction fuel with
  | zero => intro n c h; simp [natReprAux] at h
  | succ f ih =>
    intro n c h
    unfold natReprAux at h
    by_cases h10 : n < 10
    · simp only [h10, if_true, List.mem_singleton] at h
      subst h; exact digitChar_ne_colon n
    · simp only [h10, if_false, List.mem_cons] at h
      rcases h with h | h
      · subst h; exact digitChar_ne_colon _
      · exact ih _ _ h

theorem split_on_colon :
    ∀ (a1 : List Char) (b1 : List Char) (a2 b2 : List Char),
      (∀ c ∈ a1, c ≠ ':') → (∀ c ∈ a2, c ≠ ':') →
      a1 ++ ':' :: b1 = a2 ++ ':' :: b2 → a1 = a2 ∧ b1 = b2 := by
  intro a1
  induction a1 with
  | nil =>
    intro b1 a2 b2 _ h2 heq
    cases a2 with
    | nil => simpa using heq
    | cons x xs =>
      simp only [List.nil_append, List.cons_append, List.cons.injEq] at heq
      exact absurd heq.1.symm (h2 x (by simp))
  | cons x xs ih =>
    intro b1 a2 b2 h1 h2 heq
    cases a2 with
    | nil =>
      simp only [List.cons_append, List.nil_append, List.cons.injEq] at heq
      exact absurd heq.1 (h1 x (by simp))
    | cons y ys =>
      simp only [List.cons_append, List.cons.injEq] at heq
      obtain ⟨hxy, htl⟩ := heq
      obtain ⟨he, hb⟩ := ih b1 ys b2 (fun c hc => h1 c (by simp [hc]))
        (fun c hc => h2 c (by simp [hc])) htl
      exact ⟨by rw [hxy, he], hb⟩

theorem cacheKey_data (q : String) (n : Nat) :
    (cacheKey q n).data = q.data ++ ':' :: (natReprAux (n + 1) n).reverse := by
  show (q ++ ":" ++ natRepr n).data = _
  rw [String.data_append, String.data_append, List.append_assoc]
  rfl

theorem cacheKey_inj {q1 q2 : String} {n1 n2 : Nat}
    (h : cacheKey q1 n1 = cacheKey q2 n2) : q1 = q2 ∧ n1 = n2 := by
  have hd : (cacheKey q1 n1).data = (cacheKey q2 n2).data := by rw [h]
  rw [cacheKey_data, cacheKey_data] at hd
  have hr : (natReprAux (n1 + 1) n1) ++ ':' :: q1.data.reverse =
      (natReprAux (n2 + 1) n2) ++ ':' :: q2.data.reverse := by
    have := congrArg List.reverse hd
    simpa [List.reverse_append] using this
  obtain ⟨ha, hb⟩ := split_on_colon _ _ _ _
    (natReprAux_ne_colon _ n1) (natReprAux_ne_colon _ n2) hr
  refine ⟨?_, natReprAux_inj ha⟩
  apply String.ext
  have := congrArg List.reverse hb
  simpa using this

theorem cacheKey_limit_inj {q : String} {n1 n2 : Nat} (h : n1 ≠ n2) :
    cacheKey q n1 ≠ cacheKey q n2 := fun hc => h (cacheKey_inj hc).2

theorem insDesc_perm {α : Type} (gtB : α → α → Bool) (a : α) :
    ∀ l : List α, (insDesc gtB a l).Perm (a :: l) := by
  intro l
  induction l with
  | nil => simp [insDesc]
  | cons b bs ih =>
    unfold insDesc
    by_cases h : gtB b a = true
    · simp only [h, if_true]
      exact (ih.cons b).trans (List.Perm.swap a b bs)
    · simp [h]

theorem sortDesc_perm {α : Type} (gtB : α → α → Bool) :
    ∀ l : List α, (sortDesc gtB l).Perm l := by
  intro l
  induction l with
  | nil => simp [sortDesc]
  | cons a as ih =>
    unfold sortDesc
    exact (insDesc_perm gtB a (sortDesc gtB as)).trans (ih.cons a)

theorem mem_insDesc {α : Type} {gtB : α → α → Bool} {a x : α} {l : List α} :
    x ∈ insDesc gtB a l ↔ x = a ∨ x ∈ l := by
  rw [(insDesc_perm gtB a l).mem_iff]
  simp

theorem pairwise_insDesc_score (a : SearchResult) (l : List SearchResult)
    (h : List.Pairwise (fun x y => y.score ≤ x.score) l) :
    List.Pairwise (fun x y => y.score ≤ x.score)
      (insDesc (fun b a => decide (a.score < b.score)) a l) := by
  induction l with
  | nil => simp [insDesc]
  | cons b bs ih =>
    rw [List.pairwise_cons] at h
    obtain ⟨hb, hbs⟩ := h
    unfold insDesc
    by_cases hc : a.score < b.score
    · rw [if_pos (by simpa using hc)]
      rw [List.pairwise_cons]
      refine ⟨?_, ih hbs⟩
      intro y hy
      rcases mem_insDesc.mp hy with rfl | hy
      · exact le_of_lt hc
      · exact hb y hy
    · rw [if_neg (by simpa using hc)]
      rw [List.pairwise_cons]
      refine ⟨?_, List.pairwise_cons.mpr ⟨hb, hbs⟩⟩
      intro y hy
      rcases List.mem_cons.mp hy with rfl | hy
      · exact le_of_not_lt hc
      · exact (hb y hy).trans (le_of_not_lt hc)

theorem sortByScore_sorted (l : List SearchResult) : sortedByScore (sortByScore l) := by
  unfold sortedByScore sortByScore
  induction l with
  | nil => simp [sortDesc]
  | cons a as ih => exact pairwise_insDesc_score a _ ih

theorem insDesc_split {α : Type} (gtB : α → α → Bool) (a : α) :
    ∀ l : List α,
      insDesc gtB a l = l.takeWhile (fun b => gtB b a) ++ a :: l.dropWhile (fun b => gtB b a) := by
  intro l
  induction l with
  | nil => simp [insDesc]
  | cons b bs ih =>
    unfold insDesc
    by_cases h : gtB b a = true
    · simp [h, List.takeWhile_cons, List.dropWhile_cons, ih]
    · simp [h, List.takeWhile_cons, List.dropWhile_cons]

theorem filter_insDesc_score (a : SearchResult) (l : List SearchResult) (s : ℚ) :
    (insDesc (fun b a => decide (a.score < b.score)) a l).filter
        (fun r => decide (r.score = s)) =
      if a.score = s then a :: l.filter (fun r => decide (r.score = s))
      else l.filter (fun r => decide (r.score = s)) := by
  have hsplit := insDesc_split (fun b x => decide (x.score < b.score)) a l
  by_cases hs : a.score = s
  · have htw : (l.takeWhile (fun b => decide (a.score < b.score))).filter
        (fun r => decide (r.score = s)) = [] := by
      rw [List.filter_eq_nil_iff]
      intro x hx
      have hgt : a.score < x.score := by
        have h0 := List.mem_takeWhile_imp hx
        simpa using h0
      have hne : x.score ≠ s := by rw [← hs]; exact Ne.symm (ne_of_lt hgt)
      simp [hne]
    rw [hsplit, List.filter_append, htw, List.filter_cons]
    conv_rhs => rw [← List.takeWhile_append_dropWhile
      (fun b => decide (a.score < b.score)) l, List.filter_append, htw]
    simp [hs]
  · rw [hsplit, List.filter_append, List.filter_cons]
    conv_rhs => rw [← List.takeWhile_append_dropWhile
      (fun b => decide (a.score < b.score)) l, List.filter_append]
    simp [hs]

theorem filter_sortByScore (l : List SearchResult) (s : ℚ) :
    (sortByScore l).filter (fun r => decide (r.score = s)) =
      l.filter (fun r => decide (r.score = s)) := by
  unfold sortByScore
  induction l with
  | nil => simp [sortDesc]
  | cons a as ih =>
    show (insDesc _ a (sortDesc _ as)).filter _ = _
    rw [filter_insDesc_score, List.filter_cons]
    by_cases hs : a.score = s
    · simp [hs, ih]
    · simp [hs, ih]

theorem lookupCache_append_left {c1 c2 : List (String × CachedSearchResult)} {key : String}
    (h : lookupCache c1 key = none) :
    lookupCache (c1 ++ c2) key = lookupCache c2 key := by
  induction c1 with
  | nil => simp
  | cons p rest ih =>
    obtain ⟨k, v⟩ := p
    simp only [List.cons_append]
    show (if k == key then some v else lookupCache (rest ++ c2) key) = _
    have h' : (if k == key then some v else lookupCache rest key) = none := h
    by_cases hk : k == key
    · rw [if_pos hk] at h'; cases h'
    · rw [if_neg hk] at h'
      rw [if_neg hk]
      exact ih h'

theorem lookupCache_none_iff {c : List (String × CachedSearchResult)} {key : String} :
    lookupCache c key = none ↔ ∀ p ∈ c, p.1 ≠ key := by
  induction c with
  | nil => simp [lookupCache]
  | cons p rest ih =>
    obtain ⟨k, v⟩ := p
    by_cases hk : k == key
    · simp [lookupCache, hk, eq_of_beq hk]
    · have hne : k ≠ key := by simpa using hk
      simp [lookupCache, hk, ih, hne]

theorem setCache_absent {c : List (String × CachedSearchResult)} {key : String}
    (e : CachedSearchResult) (h : lookupCache c key = none) :
    setCache c key e = c ++ [(key, e)] := by
  induction c with
  | nil => rfl
  | cons p rest ih =>
    obtain ⟨k, v⟩ := p
    by_cases hk : k == key
    · simp [lookupCache, hk] at h
    · simp only [lookupCache, hk, if_false] at h
      simp [setCache, hk, ih h]

theorem setCache_present {c : List (String × CachedSearchResult)} {key : String} {x : CachedSearchResult}
    (e : CachedSearchResult) (h : lookupCache c key = some x) :
    (setCache c key e).length = c.length ∧
      lookupCache (setCache c key e) key = some e := by
  induction c with
  | nil => simp [lookupCache] at h
  | cons p rest ih =>
    obtain ⟨k, v⟩ := p
    by_cases hk : k == key
    · simp [setCache, hk, lookupCache]
    · simp only [lookupCache, hk, if_false] at h
      have := ih h
      simp [setCache, hk, lookupCache, this.1, this.2]

theorem lookupCache_singleton (key : String) (e : CachedSearchResult) :
    lookupCache [(key, e)] key = some e := by
  simp [lookupCache]

theorem cachePut_lookup {c : List (String × CachedSearchResult)} {key : String}
    (e : CachedSearchResult) (hlen : c.length ≤ MAX_CACHE_SIZE) :
    lookupCache (cachePut c key e) key = some e := by
  unfold cachePut
  match hl : lookupCache c key with
  | some x =>
    obtain ⟨h1, h2⟩ := setCache_present e hl
    rw [if_neg (by rw [h1]; omega)]
    exact h2
  | none =>
    rw [setCache_absent e hl]
    by_cases hfull : MAX_CACHE_SIZE < (c ++ [(key, e)]).length
    · rw [if_pos hfull]
      rw [List.length_append] at hfull
      simp only [List.length_singleton] at hfull
      cases c with
      | nil => simp [MAX_CACHE_SIZE] at hfull
      | cons p rest =>
        simp only [List.cons_append, List.tail_cons]
        have hnone : lookupCache rest key = none := by
          rw [lookupCache_none_iff] at hl ⊢
          intro q hq
          exact hl q (by simp [hq])
        rw [lookupCache_append_left hnone]
        exact lookupCache_singleton key e
    · rw [if_neg hfull]
      rw [lookupCache_append_left hl]
      exact lookupCache_singleton key e

theorem cachePut_length {c : List (String × CachedSearchResult)} {key : String}
    (e : CachedSearchResult) (hlen : c.length ≤ MAX_CACHE_SIZE) :
    (cachePut c key e).length ≤ MAX_CACHE_SIZE := by
  unfold cachePut
  match hl : lookupCache c key with
  | some x =>
    obtain ⟨h1, _⟩ := setCache_present e hl
    rw [if_neg (by rw [h1]; omega)]
    omega
  | none =>
    rw [setCache_absent e hl]
    by_cases hfull : MAX_CACHE_SIZE < (c ++ [(key, e)]).length
    · rw [if_pos hfull]
      rw [List.length_tail, List.length_append, List.length_singleton]
      omega
    · rw [if_neg hfull]
      rw [List.length_append, List.length_singleton] at hfull
      rw [List.length_append, List.length_singleton]
      omega

theorem cachePut_absent_full {c : List (String × CachedSearchResult)} {key : String}
    (e : CachedSearchResult) (h : lookupCache c key = none)
    (hlen : c.length = MAX_CACHE_SIZE) :
    cachePut c key e = c.tail ++ [(key, e)] := by
  unfold cachePut
  rw [setCache_absent e h]
  rw [if_pos (by rw [List.length_append]; simp; omega)]
  cases c with
  | nil => simp [MAX_CACHE_SIZE] at hlen
  | cons p rest => simp

theorem cachePut_absent_small {c : List (String × CachedSearchResult)} {key : String}
    (e : CachedSearchResult) (h : lookupCache c key = none)
    (hlen : c.length < MAX_CACHE_SIZE) :
    cachePut c key e = c ++ [(key, e)] := by
  unfold cachePut
  rw [setCache_absent e h]
  rw [if_neg (by rw [List.length_append]; simp; omega)]

theorem collapseNLAux_no_newline :
    ∀ (b : Bool) (l : List Char), ∀ c ∈ collapseNLAux b l, c ≠ '\n' := by
  intro b l
  induction l generalizing b with
  | nil => intro c hc; simp [collapseNLAux] at hc
  | cons x rest ih =>
    intro c hc
    unfold collapseNLAux at hc
    by_cases hx : x == '\n'
    · rw [if_pos hx] at hc
      by_cases hb : b
      · subst hb; rw [if_pos rfl] at hc; exact ih true c hc
      · have hb' : b = false := by simpa using hb
        subst hb'
        rw [if_neg (by simp)] at hc
        rcases List.mem_cons.mp hc with rfl | hc
        · decide
        · exact ih true c hc
    · rw [if_neg hx] at hc
      rcases List.mem_cons.mp hc with rfl | hc
      · simpa using hx
      · exact ih false c hc

theorem mem_of_mem_trimChars {l : List Char} {c : Char} (h : c ∈ trimChars l) : c ∈ l := by
  unfold trimChars at h
  rw [List.mem_reverse] at h
  have h1 := (List.dropWhile_sublist _).mem h
  rw [List.mem_reverse] at h1
  exact (List.dropWhile_sublist _).mem h1

theorem getContextSnippet_no_newline (content : String) (matchIndex : Nat) (query : String) :
    ∀ c ∈ (getContextSnippet content matchIndex query).data, c ≠ '\n' := by
  intro c hc
  unfold getContextSnippet at hc
  simp only [List.mem_append] at hc
  rcases hc with (hc | hc) | hc
  · by_cases h0 : 0 < scanLineStart content.data matchIndex - SNIPPET_CONTEXT_LENGTH
    · rw [if_pos h0] at hc
      simp only [dots, List.mem_cons, List.not_mem_nil, or_false] at hc
      rcases hc with rfl | rfl | rfl <;> decide
    · rw [if_neg h0] at hc; simp at hc
  · exact collapseNLAux_no_newline false _ c (mem_of_mem_trimChars hc)
  · by_cases h0 : min content.data.length
        (scanLineEndAux content.data content.data.length (matchIndex + query.length) +
          SNIPPET_CONTEXT_LENGTH) < content.data.length
    · rw [if_pos h0] at hc
      simp only [dots, List.mem_cons, List.not_mem_nil, or_false] at hc
      rcases hc with rfl | rfl | rfl <;> decide
    · rw [if_neg h0] at hc; simp at hc

theorem getContextSnippet_decompose (content : String) (matchIndex : Nat) (query : String) :
    (getContextSnippet content matchIndex query).data =
      (if 0 < snipStart content matchIndex then dots else []) ++
        snipCore content matchIndex query ++
        (if snipStop content matchIndex query < content.data.length then dots else []) := rfl

theorem dropWhile_mem_of_not {p : Char → Bool} {l : List Char} {c : Char}
    (h : c ∈ l) (hp : p c = false) : c ∈ l.dropWhile p := by
  induction l with
  | nil => simp at h
  | cons x xs ih =>
    rw [List.dropWhile_cons]
    by_cases hx : p x
    · rw [if_pos hx]
      rcases List.mem_cons.mp h with rfl | h
      · rw [hx] at hp; cases hp
      · exact ih h
    · rw [if_neg hx]
      exact h

theorem mem_trimChars_of_mem {l : List Char} {c : Char} (h : c ∈ l) (hws : jsWS c = false) :
    c ∈ trimChars l := by
  unfold trimChars
  rw [List.mem_reverse]
  apply dropWhile_mem_of_not _ hws
  rw [List.mem_reverse]
  exact dropWhile_mem_of_not h hws

theorem mem_collapseNLAux_of_mem :
    ∀ (b : Bool) (l : List Char) (c : Char), c ∈ l → c ≠ '\n' → c ∈ collapseNLAux b l := by
  intro b l
  induction l generalizing b with
  | nil => intro c hc; simp at hc
  | cons x rest ih =>
    intro c hc hne
    unfold collapseNLAux
    by_cases hx : x == '\n'
    · rw [if_pos hx]
      have hcr : c ∈ rest := by
        rcases List.mem_cons.mp hc with rfl | h
        · exact absurd (eq_of_beq hx) hne
        · exact h
      by_cases hb : b
      · subst hb; rw [if_pos rfl]; exact ih true c hcr hne
      · have hb' : b = false := by simpa using hb
        subst hb'
        rw [if_neg (by simp)]
        exact List.mem_cons_of_mem _ (ih true c hcr hne)
    · rw [if_neg hx]
      rcases List.mem_cons.mp hc with rfl | h
      · exact List.mem_cons_self _ _
      · exact List.mem_cons_of_mem _ (ih false c h hne)

theorem scanLineStart_le (c : List Char) : ∀ i, scanLineStart c i ≤ i := by
  intro i
  induction i with
  | zero => simp [scanLineStart]
  | succ n ih =>
    unfold scanLineStart
    by_cases h : c.getD n ' ' == '\n'
    · rw [if_pos h]
    · rw [if_neg h]; omega

theorem scanLineEndAux_ge (c : List Char) : ∀ fuel j, j ≤ scanLineEndAux c fuel j := by
  intro fuel
  induction fuel with
  | zero => intro j; simp [scanLineEndAux]
  | succ f ih =>
    intro j
    unfold scanLineEndAux
    by_cases hj : j < c.length
    · rw [if_pos hj]
      by_cases hc : c.getD j ' ' == '\n'
      · rw [if_pos hc]
      · rw [if_neg hc]
        exact le_trans (by omega) (ih (j + 1))
    · rw [if_neg hj]

theorem matchesAt_getElem :
    ∀ needle hay : List Char, matchesAt needle hay = true →
      ∀ k, k < needle.length → hay[k]? = needle[k]? := by
  intro needle
  induction needle with
  | nil => intro hay _ k hk; simp at hk
  | cons a n ih =>
    intro hay hm k hk
    cases hay with
    | nil => simp [matchesAt] at hm
    | cons b h =>
      unfold matchesAt at hm
      rw [Bool.and_eq_true] at hm
      obtain ⟨hab, hrest⟩ := hm
      cases k with
      | zero => simp [eq_of_beq hab]
      | succ m =>
        simp only [List.getElem?_cons_succ]
        exact ih h hrest m (by simpa using hk)

theorem occursIdxAux_spec :
    ∀ (hay : List Char) (needle : List Char) (pos i : Nat),
      occursIdxAux needle pos hay = some i →
      pos ≤ i ∧ matchesAt needle (hay.drop (i - pos)) = true := by
  intro hay
  induction hay with
  | nil =>
    intro needle pos i h
    unfold occursIdxAux at h
    by_cases hm : matchesAt needle [] = true
    · rw [if_pos hm] at h
      cases h
      exact ⟨le_refl _, by simpa using hm⟩
    · rw [if_neg hm] at h; cases h
  | cons c t ih =>
    intro needle pos i h
    unfold occursIdxAux at h
    by_cases hm : matchesAt needle (c :: t) = true
    · rw [if_pos hm] at h
      cases h
      exact ⟨le_refl _, by simpa using hm⟩
    · rw [if_neg hm] at h
      obtain ⟨hle, hmat⟩ := ih needle (pos + 1) i h
      refine ⟨by omega, ?_⟩
      have hd : i - pos = (i - (pos + 1)) + 1 := by omega
      rw [hd, List.drop_succ_cons]
      exact hmat

theorem occursIdx_spec {needle hay : List Char} {i : Nat}
    (h : occursIdx needle hay = some i) :
    matchesAt needle (hay.drop i) = true := by
  have := occursIdxAux_spec hay needle 0 i h
  simpa using this.2

theorem occursIdx_getElem {needle hay : List Char} {i k : Nat}
    (h : occursIdx needle hay = some i) (hk : k < needle.length) :
    hay[i + k]? = needle[k]? := by
  have hm := occursIdx_spec h
  have := matchesAt_getElem needle (hay.drop i) hm k hk
  rw [List.getElem?_drop] at this
  exact this

theorem toLower_of_jsWS {c : Char} (h : jsWS c = true) : c.toLower = c := by
  unfold jsWS at h
  simp only [Bool.or_eq_true, beq_iff_eq] at h
  rcases h with ((((rfl | rfl) | rfl) | rfl) | rfl) | rfl <;> decide

theorem jsWS_newline : jsWS '\n' = true := by decide

theorem getContextSnippet_ne_empty (content query : String) {i : Nat}
    (hocc : occursIdx (toLowerL query.data) (toLowerL content.data) = some i)
    (hq : ∃ ch ∈ toLowerL query.data, jsWS ch = false) :
    getContextSnippet content i query ≠ "" := by
  obtain ⟨ch, hchmem, hchws⟩ := hq
  obtain ⟨k, hk, hget⟩ := List.mem_iff_getElem.mp hchmem
  have hkq : k < query.data.length := by simpa [toLowerL] using hk
  have hLq : (toLowerL query.data)[k]? = some ch := by
    rw [List.getElem?_eq_some_iff]; exact ⟨hk, hget⟩
  have hHay : (toLowerL content.data)[i + k]? = some ch := by
    rw [occursIdx_getElem hocc hk]
    exact hLq
  have hmap : (content.data[i + k]?).map Char.toLower = some ch := by
    rw [← List.getElem?_map]; exact hHay
  obtain ⟨b, hb, hbl⟩ := Option.map_eq_some'.mp hmap
  have hbws : jsWS b = false := by
    by_contra hws
    rw [Bool.not_eq_false] at hws
    rw [toLower_of_jsWS hws] at hbl
    rw [hbl] at hws
    rw [hws] at hchws
    cases hchws
  have hbnl : b ≠ '\n' := by
    intro hb'
    rw [hb', jsWS_newline] at hbws
    cases hbws
  have hik : i + k < content.data.length := by
    rcases List.getElem?_eq_some_iff.mp hb with ⟨hlt, _⟩
    exact hlt
  intro hempty
  have hdata : (getContextSnippet content i query).data = [] := by rw [hempty]
  rw [getContextSnippet_decompose] at hdata
  have hcore : snipCore content i query = [] := by
    rcases List.append_eq_nil.mp hdata with ⟨h1, h2⟩
    rcases List.append_eq_nil.mp h1 with ⟨_, h3⟩
    exact h3
  have hstart_le : snipStart content i ≤ i + k := by
    unfold snipStart
    have := scanLineStart_le content.data i
    omega
  have hstop_gt : i + k < snipStop content i query := by
    unfold snipStop
    have hge := scanLineEndAux_ge content.data content.data.length (i + query.length)
    have hql : query.length = query.data.length := rfl
    unfold SNIPPET_CONTEXT_LENGTH
    omega
  have hexc : ((content.data.drop (snipStart content i)).take
      (snipStop content i query - snipStart content i))[i + k - snipStart content i]? =
        some b := by
    rw [List.getElem?_take]
    rw [if_pos (by omega)]
    rw [List.getElem?_drop]
    rw [Nat.add_sub_cancel' hstart_le]
    exact hb
  have hbmem : b ∈ (content.data.drop (snipStart content i)).take
      (snipStop content i query - snipStart content i) := by
    rcases List.getElem?_eq_some_iff.mp hexc with ⟨hlt, hgetb⟩
    rw [← hgetb]
    exact List.getElem_mem hlt
  have hbcol : b ∈ collapseNL ((content.data.drop (snipStart content i)).take
      (snipStop content i query - snipStart content i)) :=
    mem_collapseNLAux_of_mem false _ b hbmem hbnl
  have hbtrim : b ∈ snipCore content i query := by
    unfold snipCore
    exact mem_trimChars_of_mem hbcol hbws
  rw [hcore] at hbtrim
  simp at hbtrim

theorem searchInFiles_hit {fuse : FuseAlg} {vault : Vault} {st : SearchServiceState}
    {query : String} {limit now : Nat} {rs : List SearchResult}
    (hq : query ≠ "") (hc : cacheGet st.searchCache (cacheKey query limit) now = some rs) :
    searchInFiles fuse vault st query limit now = .ok ⟨rs, st, []⟩ := by
  unfold searchInFiles
  rw [if_neg hq, hc]

theorem searchInFiles_miss {fuse : FuseAlg} {vault : Vault} {st : SearchServiceState}
    {query : String} {limit now : Nat}
    (hq : query ≠ "") (hc : cacheGet st.searchCache (cacheKey query limit) now = none) :
    searchInFiles fuse vault st query limit now = searchMiss fuse vault st query limit now := by
  unfold searchInFiles
  rw [if_neg hq, hc]

theorem updateFileIndex_cases (vault : Vault) (st : SearchServiceState) (now : Nat) :
    (updateFileIndex vault st now = .ok st ∧
      (st.fileIndex.isSome && decide (now - st.lastIndexUpdate < INDEX_UPDATE_INTERVAL)) = true) ∨
    (updateFileIndex vault st now = .ok ⟨some (mkFileIndex vault.files), now, st.searchCache⟩ ∧
      (st.fileIndex.isSome && decide (now - st.lastIndexUpdate < INDEX_UPDATE_INTERVAL)) = false ∧
      vault.enumOk = true) ∨
    (updateFileIndex vault st now = .error () ∧
      (st.fileIndex.isSome && decide (now - st.lastIndexUpdate < INDEX_UPDATE_INTERVAL)) = false ∧
      vault.enumOk = false) := by
  unfold updateFileIndex
  by_cases hcond : (st.fileIndex.isSome &&
      decide (now - st.lastIndexUpdate < INDEX_UPDATE_INTERVAL)) = true
  · left
    rw [if_pos hcond]
    exact ⟨rfl, hcond⟩
  · rw [Bool.not_eq_true] at hcond
    rw [if_neg (by simp [hcond])]
    by_cases henum : vault.enumOk = true
    · right; left
      rw [if_pos henum]
      exact ⟨rfl, hcond, henum⟩
    · rw [Bool.not_eq_true] at henum
      right; right
      rw [if_neg (by simp [henum])]
      exact ⟨rfl, hcond, henum⟩

theorem updateFileIndex_ok_cache {vault : Vault} {st st1 : SearchServiceState} {now : Nat}
    (h : updateFileIndex vault st now = .ok st1) : st1.searchCache = st.searchCache := by
  rcases updateFileIndex_cases vault st now with ⟨he, _⟩ | ⟨he, _, _⟩ | ⟨he, _, _⟩ <;>
    rw [he] at h <;> cases h <;> rfl

theorem updateFileIndex_ok_of_enum {vault : Vault} (st : SearchServiceState) (now : Nat)
    (henum : vault.enumOk = true) : ∃ st1, updateFileIndex vault st now = .ok st1 := by
  rcases updateFileIndex_cases vault st now with ⟨he, _⟩ | ⟨he, _, _⟩ | ⟨he, _, hf⟩
  · exact ⟨st, he⟩
  · exact ⟨_, he⟩
  · rw [henum] at hf; cases hf

theorem filenamePhase_snippet (vault : Vault) (hits : List (String × ℚ)) (limit : Nat) :
    ∀ r ∈ filenamePhase vault hits limit, r.snippet = "" := by
  intro r hr
  unfold filenamePhase at hr
  rw [List.mem_filterMap] at hr
  obtain ⟨h, _, hmap⟩ := hr
  rcases Option.map_eq_some'.mp hmap with ⟨f, _, hf⟩
  rw [← hf]

theorem filenamePhase_length (vault : Vault) (hits : List (String × ℚ)) (limit : Nat) :
    (filenamePhase vault hits limit).length ≤ limit := by
  unfold filenamePhase
  exact le_trans (List.length_filterMap_le _ _) (List.length_take_le _ _)

theorem filenamePhase_paths_sublist (vault : Vault) (hits : List (String × ℚ)) (limit : Nat) :
    ((filenamePhase vault hits limit).map (fun r => r.path)).Sublist
      ((hits.take limit).map Prod.fst) := by
  unfold filenamePhase
  induction hits.take limit with
  | nil => simp
  | cons h t ih =>
    match hf : vault.files.find? (fun f => f.path == h.1) with
    | none =>
      simp only [List.filterMap_cons, hf, Option.map_none']
      exact ih.trans (List.sublist_cons_self _ _)
    | some f =>
      have hfp : f.path = h.1 := by simpa using List.find?_some hf
      simp only [List.filterMap_cons, hf, Option.map_some', List.map_cons, hfp]
      exact ih.cons₂ h.1

theorem filenamePhase_nodup (vault : Vault) (hits : List (String × ℚ)) (limit : Nat)
    (hnodup : (hits.map Prod.fst).Nodup) : nodupPaths (filenamePhase vault hits limit) := by
  unfold nodupPaths
  apply (filenamePhase_paths_sublist vault hits limit).nodup
  exact ((List.take_sublist limit hits).map Prod.fst).nodup hnodup

theorem updateFirst_map_path (p : String) (s : String) :
    ∀ l : List SearchResult, (updateFirst p s l).map (fun r => r.path) = l.map (fun r => r.path) := by
  intro l
  induction l with
  | nil => rfl
  | cons r rs ih =>
    unfold updateFirst
    by_cases h : r.path == p
    · rw [if_pos h]; simp
    · rw [if_neg h]; simp [ih]

theorem findByPath_updateFirst_other {p p' : String} (s : String) (hne : p' ≠ p) :
    ∀ l : List SearchResult, findByPath p (updateFirst p' s l) = findByPath p l := by
  intro l
  induction l with
  | nil => rfl
  | cons r rs ih =>
    unfold updateFirst
    by_cases h : r.path == p'
    · rw [if_pos h]
      have hrp : ¬(r.path == p) = true := by
        have h1 := eq_of_beq h
        simp [h1]
        exact fun hc => hne hc
      unfold findByPath
      rw [if_neg (by simpa using hrp), if_neg (by simpa using hrp)]
    · rw [if_neg h]
      unfold findByPath
      by_cases hp : r.path == p
      · rw [if_pos hp, if_pos hp]
      · rw [if_neg hp, if_neg hp]
        exact ih

theorem findByPath_updateFirst_self {p : String} (s : String) :
    ∀ (l : List SearchResult) (e : SearchResult), findByPath p l = some e →
      findByPath p (updateFirst p s l) =
        some ⟨e.path, e.name, (if e.score < 800 then 800 else e.score),
          (if e.snippet == "" then s else e.snippet)⟩ := by
  intro l
  induction l with
  | nil => intro e h; simp [findByPath] at h
  | cons r rs ih =>
    intro e h
    unfold findByPath at h
    unfold updateFirst
    by_cases hp : r.path == p
    · rw [if_pos hp] at h
      cases h
      rw [if_pos hp]
      unfold findByPath
      rw [if_pos hp]
    · rw [if_neg hp] at h
      rw [if_neg hp]
      unfold findByPath
      rw [if_neg hp]
      exact ih e h

theorem applyBatch_map_path (q : String) (fnd : List String) :
    ∀ (batch : List VFile) (res : List SearchResult),
      (applyBatch q fnd batch res).1.map (fun r => r.path) = res.map (fun r => r.path) := by
  intro batch
  induction batch with
  | nil => intro res; rfl
  | cons f fs ih =>
    intro res
    unfold applyBatch
    cases hfs : fileSnippet q f with
    | none => exact ih res
    | some s' =>
      dsimp only
      by_cases hc : fnd.contains f.path
      · rw [if_pos hc]
        rw [ih (updateFirst f.path s' res)]
        exact updateFirst_map_path f.path s' res
      · rw [if_neg hc]
        exact ih res

theorem applyBatch_cands_sublist (q : String) (fnd : List String) :
    ∀ (batch : List VFile) (res : List SearchResult),
      ((applyBatch q fnd batch res).2.map (fun r => r.path)).Sublist
        (batch.map (fun f => f.path)) := by
  intro batch
  induction batch with
  | nil => intro res; simp [applyBatch]
  | cons f fs ih =>
    intro res
    unfold applyBatch
    cases hfs : fileSnippet q f with
    | none =>
      dsimp only
      simp only [List.map_cons]
      exact (ih res).trans (List.sublist_cons_self _ _)
    | some s' =>
      dsimp only
      by_cases hc : fnd.contains f.path
      · rw [if_pos hc]
        simp only [List.map_cons]
        exact (ih (updateFirst f.path s' res)).trans (List.sublist_cons_self _ _)
      · rw [if_neg hc]
        simp only [List.map_cons]
        exact (ih res).cons₂ f.path

theorem applyBatch_cands_not_found (q : String) (fnd : List String) :
    ∀ (batch : List VFile) (res : List SearchResult),
      ∀ c ∈ (applyBatch q fnd batch res).2, fnd.contains c.path = false := by
  intro batch
  induction batch with
  | nil => intro res c hc; simp [applyBatch] at hc
  | cons f fs ih =>
    intro res c hc
    unfold applyBatch at hc
    cases hfs : fileSnippet q f with
    | none =>
      rw [hfs] at hc
      exact ih res c hc
    | some s' =>
      rw [hfs] at hc
      dsimp only at hc
      by_cases hcon : fnd.contains f.path
      · rw [if_pos hcon] at hc
        exact ih (updateFirst f.path s' res) c hc
      · rw [if_neg hcon] at hc
        rcases List.mem_cons.mp hc with rfl | hc
        · simpa using hcon
        · exact ih res c hc

theorem applyBatch_keep (q : String) (fnd : List String) :
    ∀ (batch : List VFile) (res : List SearchResult) (p : String) (e : SearchResult),
      findByPath p res = some e → 800 ≤ e.score → e.snippet ≠ "" →
      ∃ e', findByPath p (applyBatch q fnd batch res).1 = some e' ∧
        800 ≤ e'.score ∧ e'.snippet ≠ "" := by
  intro batch
  induction batch with
  | nil => intro res p e h h8 hs; exact ⟨e, h, h8, hs⟩
  | cons f fs ih =>
    intro res p e h h8 hs
    unfold applyBatch
    cases hfs : fileSnippet q f with
    | none => exact ih res p e h h8 hs
    | some s' =>
      dsimp only
      by_cases hc : fnd.contains f.path
      · rw [if_pos hc]
        by_cases hpp : f.path = p
        · subst hpp
          have hupd := findByPath_updateFirst_self s' res e h
          refine ih _ f.path _ hupd ?_ ?_
          · by_cases hlt : e.score < 800
            · rw [if_pos hlt]
            · rw [if_neg hlt]
              exact h8
          · have : (if e.snippet == "" then s' else e.snippet) = e.snippet := by
              rw [if_neg (by simpa using hs)]
            rw [this]
            exact hs
        · have hother := findByPath_updateFirst_other s' hpp res
          rw [← hother] at h
          exact ih _ p e h h8 hs
      · rw [if_neg hc]
        exact ih res p e h h8 hs

theorem applyBatch_not_in_batch (q : String) (fnd : List String) :
    ∀ (batch : List VFile) (res : List SearchResult) (p : String),
      p ∉ batch.map (fun f => f.path) →
      findByPath p (applyBatch q fnd batch res).1 = findByPath p res := by
  intro batch
  induction batch with
  | nil => intro res p _; rfl
  | cons f fs ih =>
    intro res p hp
    have hpf : f.path ≠ p := by
      intro h
      exact hp (by simp [h])
    have hpfs : p ∉ fs.map (fun f => f.path) := by
      intro h
      exact hp (by simp [h])
    unfold applyBatch
    cases hfs : fileSnippet q f with
    | none => exact ih res p hpfs
    | some s' =>
      dsimp only
      by_cases hc : fnd.contains f.path
      · rw [if_pos hc]
        rw [ih _ p hpfs]
        exact findByPath_updateFirst_other s' hpf res
      · rw [if_neg hc]
        exact ih res p hpfs

theorem applyBatch_merge (q : String) (fnd : List String) :
    ∀ (batch : List VFile) (res : List SearchResult) (F : VFile) (snip : String)
      (e : SearchResult),
      (batch.map (fun f => f.path)).Nodup → F ∈ batch →
      fileSnippet q F = some snip → fnd.contains F.path = true →
      findByPath F.path res = some e → e.snippet = "" →
      findByPath F.path (applyBatch q fnd batch res).1 =
        some ⟨e.path, e.name, (if e.score < 800 then 800 else e.score), snip⟩ := by
  intro batch
  induction batch with
  | nil => intro res F snip e _ hF; simp at hF
  | cons f fs ih =>
    intro res F snip e hnd hF hsnip hcont hfind hesnip
    rw [List.map_cons, List.nodup_cons] at hnd
    obtain ⟨hhead, htail⟩ := hnd
    rcases List.mem_cons.mp hF with rfl | hFfs
    · unfold applyBatch
      rw [hsnip]
      dsimp only
      rw [if_pos hcont]
      have hnotin : F.path ∉ fs.map (fun f => f.path) := hhead
      rw [applyBatch_not_in_batch q fnd fs _ F.path hnotin]
      have := findByPath_updateFirst_self snip res e hfind
      rw [this]
      have hss : (if e.snippet == "" then snip else e.snippet) = snip := by
        rw [if_pos (by simp [hesnip])]
      rw [hss]
    · have hne : f.path ≠ F.path := by
        intro h
        exact hhead (h ▸ List.mem_map_of_mem (fun f => f.path) hFfs)
      unfold applyBatch
      cases hfs2 : fileSnippet q f with
      | none => exact ih res F snip e htail hFfs hsnip hcont hfind hesnip
      | some s' =>
        dsimp only
        by_cases hc : fnd.contains f.path
        · rw [if_pos hc]
          refine ih _ F snip e htail hFfs hsnip hcont ?_ hesnip
          rw [findByPath_updateFirst_other s' hne res]
          exact hfind
        · rw [if_neg hc]
          exact ih res F snip e htail hFfs hsnip hcont hfind hesnip

theorem pushResults_eq_append (limit : Nat) :
    ∀ (cands res : List SearchResult),
      ∃ k, pushResults limit res cands = res ++ cands.take k := by
  intro cands
  induction cands with
  | nil => intro res; exact ⟨0, by simp [pushResults]⟩
  | cons c cs ih =>
    intro res
    unfold pushResults
    by_cases h : limit ≤ (res ++ [c]).length
    · rw [if_pos h]
      exact ⟨1, by simp⟩
    · rw [if_neg h]
      obtain ⟨k, hk⟩ := ih (res ++ [c])
      refine ⟨k + 1, ?_⟩
      rw [hk]
      simp [List.take_succ_cons]

theorem pushResults_length (limit : Nat) :
    ∀ (cands res : List SearchResult), res.length < limit →
      (pushResults limit res cands).length ≤ limit := by
  intro cands
  induction cands with
  | nil => intro res h; unfold pushResults; omega
  | cons c cs ih =>
    intro res h
    unfold pushResults
    dsimp only
    have hsl : (res ++ [c]).length = res.length + 1 := by simp
    by_cases hl : limit ≤ (res ++ [c]).length
    · rw [if_pos hl]
      omega
    · rw [if_neg hl]
      apply ih
      omega

theorem findByPath_append_left {p : String} {res : List SearchResult} {e : SearchResult}
    (h : findByPath p res = some e) (l : List SearchResult) :
    findByPath p (res ++ l) = some e := by
  induction res with
  | nil => simp [findByPath] at h
  | cons r rs ih =>
    rw [List.cons_append]
    unfold findByPath at h ⊢
    by_cases hp : r.path == p
    · rw [if_pos hp] at h ⊢
      exact h
    · rw [if_neg hp] at h ⊢
      exact ih h

theorem contentLoopAux_stop (query : String) (limit : Nat) (fuel : Nat)
    (files : List VFile) (res : List SearchResult) (h : limit ≤ res.length) :
    contentLoopAux query limit fuel files res = (res, []) := by
  cases fuel with
  | zero => rfl
  | succ f =>
    cases files with
    | nil => rfl
    | cons x xs =>
      unfold contentLoopAux
      rw [if_pos h]

theorem contentLoopAux_keep (query : String) (limit : Nat) :
    ∀ (fuel : Nat) (files : List VFile) (res : List SearchResult) (p : String)
      (e : SearchResult),
      findByPath p res = some e → 800 ≤ e.score → e.snippet ≠ "" →
      ∃ e', findByPath p (contentLoopAux query limit fuel files res).1 = some e' ∧
        800 ≤ e'.score ∧ e'.snippet ≠ "" := by
  intro fuel
  induction fuel with
  | zero => intro files res p e h h8 hs; exact ⟨e, h, h8, hs⟩
  | succ f ih =>
    intro files res p e h h8 hs
    cases files with
    | nil => exact ⟨e, h, h8, hs⟩
    | cons x xs =>
      unfold contentLoopAux
      by_cases hstop : limit ≤ res.length
      · rw [if_pos hstop]
        exact ⟨e, h, h8, hs⟩
      · rw [if_neg hstop]
        dsimp only
        obtain ⟨e1, he1, h81, hs1⟩ := applyBatch_keep query (res.map (fun r => r.path))
          ((x :: xs).take CONTENT_SEARCH_BATCH_SIZE) res p e h h8 hs
        obtain ⟨k, hk⟩ := pushResults_eq_append limit
          (applyBatch query (res.map (fun r => r.path))
            ((x :: xs).take CONTENT_SEARCH_BATCH_SIZE) res).2
          (applyBatch query (res.map (fun r => r.path))
            ((x :: xs).take CONTENT_SEARCH_BATCH_SIZE) res).1
        have he2 := findByPath_append_left he1 (((applyBatch query (res.map (fun r => r.path))
          ((x :: xs).take CONTENT_SEARCH_BATCH_SIZE) res).2).take k)
        rw [← hk] at he2
        exact ih ((x :: xs).drop CONTENT_SEARCH_BATCH_SIZE) _ p e1 he2 h81 hs1

theorem contains_false_not_mem {l : List String} {x : String}
    (h : l.contains x = false) : x ∉ l := by
  intro hmem
  have : List.elem x l = true := List.elem_iff.mpr hmem
  have hc : l.contains x = true := this
  rw [hc] at h
  cases h

theorem contentLoopAux_inv (query : String) (limit : Nat) :
    ∀ (fuel : Nat) (files : List VFile) (res : List SearchResult),
      nodupPaths res → res.length ≤ limit → ((files.map (fun f => f.path)).Nodup) →
      nodupPaths (contentLoopAux query limit fuel files res).1 ∧
        (contentLoopAux query limit fuel files res).1.length ≤ limit := by
  intro fuel
  induction fuel with
  | zero => intro files res h1 h2 _; exact ⟨h1, h2⟩
  | succ f ih =>
    intro files res h1 h2 h3
    cases files with
    | nil => exact ⟨h1, h2⟩
    | cons x xs =>
      unfold contentLoopAux
      by_cases hstop : limit ≤ res.length
      · rw [if_pos hstop]
        exact ⟨h1, h2⟩
      · rw [if_neg hstop]
        dsimp only
        set fnd := res.map (fun r => r.path) with hfnd
        set batch := (x :: xs).take CONTENT_SEARCH_BATCH_SIZE with hbatch
        set step := applyBatch query fnd batch res with hstep
        obtain ⟨k, hk⟩ := pushResults_eq_append limit step.2 step.1
        have hupd : step.1.map (fun r => r.path) = fnd := applyBatch_map_path query fnd batch res
        have hcand : ((step.2.take k).map (fun r => r.path)).Nodup := by
          apply List.Nodup.sublist ((List.take_sublist k step.2).map (fun r => r.path))
          apply List.Nodup.sublist (applyBatch_cands_sublist query fnd batch res)
          apply List.Nodup.sublist ((List.take_sublist CONTENT_SEARCH_BATCH_SIZE (x :: xs)).map
            (fun f => f.path))
          exact h3
        have hdisj : List.Disjoint (step.1.map (fun r => r.path))
            ((step.2.take k).map (fun r => r.path)) := by
          intro a ha hb
          rw [hupd] at ha
          obtain ⟨c, hc, rfl⟩ := List.mem_map.mp hb
          have hcmem : c ∈ step.2 := (List.take_sublist k step.2).mem hc
          have := applyBatch_cands_not_found query fnd batch res c hcmem
          exact contains_false_not_mem this ha
        have hres2_nodup : nodupPaths (pushResults limit step.1 step.2) := by
          rw [hk]
          unfold nodupPaths
          rw [List.map_append]
          refine List.Nodup.append ?_ hcand hdisj
          rw [hupd]
          exact h1
        have hres2_len : (pushResults limit step.1 step.2).length ≤ limit := by
          apply pushResults_length
          have hlen1 : step.1.length = fnd.length := by
            have := congrArg List.length hupd
            simpa using this
          have hlen2 : fnd.length = res.length := by
            rw [hfnd]; simp
          omega
        have hrest : (((x :: xs).drop CONTENT_SEARCH_BATCH_SIZE).map (fun f => f.path)).Nodup :=
          List.Nodup.sublist ((List.drop_sublist CONTENT_SEARCH_BATCH_SIZE (x :: xs)).map
            (fun f => f.path)) h3
        exact ih ((x :: xs).drop CONTENT_SEARCH_BATCH_SIZE) _ hres2_nodup hres2_len hrest

theorem searchMiss_spec (fuse : FuseAlg) (vault : Vault) (st : SearchServiceState)
    (query : String) (limit now : Nat) (st1 : SearchServiceState)
    (he : updateFileIndex vault st now = .ok st1) (henum : vault.enumOk = true) :
    searchMiss fuse vault st query limit now =
      .ok ⟨(sortByScore (coreResults fuse vault st1.fileIndex query limit).1).take limit,
        ⟨st1.fileIndex, st1.lastIndexUpdate,
          cachePut st1.searchCache (cacheKey query limit)
            ⟨(sortByScore (coreResults fuse vault st1.fileIndex query limit).1).take limit,
              now⟩⟩,
        (coreResults fuse vault st1.fileIndex query limit).2⟩ := by
  unfold searchMiss
  rw [he]
  dsimp only
  rw [if_pos henum]

theorem searchMiss_error_of_enum_false (fuse : FuseAlg) (vault : Vault)
    (st : SearchServiceState) (query : String) (limit now : Nat)
    (henum : vault.enumOk = false) :
    searchMiss fuse vault st query limit now = .error () := by
  unfold searchMiss
  rcases updateFileIndex_cases vault st now with ⟨he, _⟩ | ⟨he, _, hf⟩ | ⟨he, _, _⟩
  · rw [he]
    dsimp only
    rw [if_neg (by simp [henum])]
  · rw [henum] at hf; cases hf
  · rw [he]

theorem searchMiss_ok_inv {fuse : FuseAlg} {vault : Vault} {st : SearchServiceState}
    {query : String} {limit now : Nat} {out : SearchOutcome}
    (h : searchMiss fuse vault st query limit now = .ok out) :
    vault.enumOk = true ∧ ∃ st1, updateFileIndex vault st now = .ok st1 ∧
      out = ⟨(sortByScore (coreResults fuse vault st1.fileIndex query limit).1).take limit,
        ⟨st1.fileIndex, st1.lastIndexUpdate,
          cachePut st1.searchCache (cacheKey query limit)
            ⟨(sortByScore (coreResults fuse vault st1.fileIndex query limit).1).take limit,
              now⟩⟩,
        (coreResults fuse vault st1.fileIndex query limit).2⟩ := by
  by_cases henum : vault.enumOk = true
  · rcases updateFileIndex_ok_of_enum st now henum with ⟨st1, he⟩
    rw [searchMiss_spec fuse vault st query limit now st1 he henum] at h
    exact ⟨henum, st1, he, (Except.ok.inj h).symm⟩
  · rw [Bool.not_eq_true] at henum
    rw [searchMiss_error_of_enum_false fuse vault st query limit now henum] at h
    cases h

theorem missWorkingResults_eq (fuse : FuseAlg) {vault : Vault} {st st1 : SearchServiceState}
    {now : Nat} (query : String) (limit : Nat)
    (he : updateFileIndex vault st now = .ok st1) :
    missWorkingResults fuse vault st query limit now =
      (coreResults fuse vault st1.fileIndex query limit).1 := by
  unfold missWorkingResults
  rw [he]

theorem missFilenameResults_eq (fuse : FuseAlg) {vault : Vault} {st st1 : SearchServiceState}
    {now : Nat} (query : String) (limit : Nat)
    (he : updateFileIndex vault st now = .ok st1) :
    missFilenameResults fuse vault st query limit now =
      wResults fuse vault st1.fileIndex query limit := by
  unfold missFilenameResults
  rw [he]

theorem wResults_snippet (fuse : FuseAlg) (vault : Vault) (fidx : Option (List FileIndex))
    (query : String) (limit : Nat) :
    ∀ r ∈ wResults fuse vault fidx query limit, r.snippet = "" := by
  cases fidx with
  | none => intro r hr; simp [wResults] at hr
  | some idx => exact filenamePhase_snippet vault (fuse idx query) limit

theorem wResults_length (fuse : FuseAlg) (vault : Vault) (fidx : Option (List FileIndex))
    (query : String) (limit : Nat) :
    (wResults fuse vault fidx query limit).length ≤ limit := by
  cases fidx with
  | none => simp [wResults]
  | some idx => exact filenamePhase_length vault (fuse idx query) limit

theorem wResults_nodup (fuse : FuseAlg) (vault : Vault) (fidx : Option (List FileIndex))
    (query : String) (limit : Nat) (hfuse : FuseWF fuse) :
    nodupPaths (wResults fuse vault fidx query limit) := by
  cases fidx with
  | none => simp [wResults, nodupPaths]
  | some idx => exact filenamePhase_nodup vault (fuse idx query) limit (hfuse idx query)

theorem findByPath_mem {p : String} :
    ∀ {l : List SearchResult} {e : SearchResult},
      findByPath p l = some e → e ∈ l ∧ e.path = p := by
  intro l
  induction l with
  | nil => intro e h; simp [findByPath] at h
  | cons r rs ih =>
    intro e h
    unfold findByPath at h
    by_cases hp : r.path == p
    · rw [if_pos hp] at h
      cases h
      exact ⟨List.mem_cons_self _ _, eq_of_beq hp⟩
    · rw [if_neg hp] at h
      obtain ⟨hm, he⟩ := ih h
      exact ⟨List.mem_cons_of_mem _ hm, he⟩

theorem nodupPaths_unique {l : List SearchResult} (h : nodupPaths l) :
    ∀ {r1 r2 : SearchResult}, r1 ∈ l → r2 ∈ l → r1.path = r2.path → r1 = r2 := by
  unfold nodupPaths at h
  induction l with
  | nil => intro r1 r2 h1; simp at h1
  | cons x xs ih =>
    rw [List.map_cons, List.nodup_cons] at h
    obtain ⟨hx, hxs⟩ := h
    intro r1 r2 h1 h2 hp
    rcases List.mem_cons.mp h1 with he1 | ht1
    · rcases List.mem_cons.mp h2 with he2 | ht2
      · rw [he1, he2]
      · subst he1
        have hcon : r1.path ∈ List.map (fun r => r.path) xs := by
          rw [hp]; exact List.mem_map_of_mem _ ht2
        exact absurd hcon hx
    · rcases List.mem_cons.mp h2 with he2 | ht2
      · subst he2
        have hcon : r2.path ∈ List.map (fun r => r.path) xs := by
          rw [← hp]; exact List.mem_map_of_mem _ ht1
        exact absurd hcon hx
      · exact ih hxs ht1 ht2 hp

theorem nodupPaths_filter_one {l : List SearchResult} {e : SearchResult}
    (h : nodupPaths l) (hm : e ∈ l) :
    (l.filter (fun r => decide (r.path = e.path))).length = 1 := by
  unfold nodupPaths at h
  induction l with
  | nil => simp at hm
  | cons x xs ih =>
    rw [List.map_cons, List.nodup_cons] at h
    obtain ⟨hx, hxs⟩ := h
    rcases List.mem_cons.mp hm with rfl | hm
    · rw [List.filter_cons]
      rw [if_pos (by simp)]
      have hnone : xs.filter (fun r => decide (r.path = e.path)) = [] := by
        rw [List.filter_eq_nil_iff]
        intro a ha
        simp only [decide_eq_true_eq]
        intro hc
        exact hx (hc ▸ List.mem_map_of_mem (fun r => r.path) ha)
      rw [hnone]
      rfl
    · rw [List.filter_cons]
      have hxe : x.path ≠ e.path := by
        intro hc
        exact hx (hc ▸ List.mem_map_of_mem (fun r => r.path) hm)
      rw [if_neg (by simpa using hxe)]
      exact ih hxs hm

theorem removeKey_lookup_none (cache : List (String × CachedSearchResult)) (key : String) :
    lookupCache (removeKey cache key) key = none := by
  induction cache with
  | nil => rfl
  | cons p rest ih =>
    obtain ⟨k, v⟩ := p
    unfold removeKey at ih ⊢
    rw [List.filter_cons]
    by_cases hk : k == key
    · rw [if_neg (by simpa using hk)]
      exact ih
    · rw [if_pos (by simpa using hk)]
      unfold lookupCache
      rw [if_neg hk]
      exact ih

theorem sortByMtime_perm (files : List VFile) : (sortByMtime files).Perm files :=
  sortDesc_perm _ files

theorem coreResults_nodup (fuse : FuseAlg) (vault : Vault) (fidx : Option (List FileIndex))
    (query : String) (limit : Nat) (hfuse : FuseWF fuse)
    (hvault : (vault.files.map (fun f => f.path)).Nodup) :
    nodupPaths (coreResults fuse vault fidx query limit).1 ∧
      (coreResults fuse vault fidx query limit).1.length ≤ limit := by
  unfold coreResults contentLoop
  apply contentLoopAux_inv
  · exact wResults_nodup fuse vault fidx query limit hfuse
  · exact wResults_length fuse vault fidx query limit
  · exact (((sortByMtime_perm vault.files).map (fun f => f.path)).nodup_iff).mpr hvault

theorem searchMiss_results_congr (fuse : FuseAlg) (vault : Vault)
    {st1 st2 : SearchServiceState} (query : String) (limit now : Nat)
    (hf : st1.fileIndex = st2.fileIndex) (hu : st1.lastIndexUpdate = st2.lastIndexUpdate) :
    resultsOf (searchMiss fuse vault st1 query limit now) =
      resultsOf (searchMiss fuse vault st2 query limit now) := by
  have hcond : (st1.fileIndex.isSome &&
      decide (now - st1.lastIndexUpdate < INDEX_UPDATE_INTERVAL)) =
    (st2.fileIndex.isSome &&
      decide (now - st2.lastIndexUpdate < INDEX_UPDATE_INTERVAL)) := by
    rw [hf, hu]
  by_cases henum : vault.enumOk = true
  · rcases updateFileIndex_cases vault st1 now with ⟨he1, hc1⟩ | ⟨he1, hc1, _⟩ | ⟨he1, hc1, hb1⟩
    · rcases updateFileIndex_cases vault st2 now with ⟨he2, hc2⟩ | ⟨he2, hc2, _⟩ | ⟨he2, hc2, hb2⟩
      · rw [searchMiss_spec fuse vault st1 query limit now st1 he1 henum,
          searchMiss_spec fuse vault st2 query limit now st2 he2 henum]
        unfold resultsOf
        rw [hf]
      · rw [hcond, hc2] at hc1; cases hc1
      · rw [henum] at hb2; cases hb2
    · rcases updateFileIndex_cases vault st2 now with ⟨he2, hc2⟩ | ⟨he2, hc2, _⟩ | ⟨he2, hc2, hb2⟩
      · rw [hcond, hc2] at hc1; cases hc1
      · rw [searchMiss_spec fuse vault st1 query limit now _ he1 henum,
          searchMiss_spec fuse vault st2 query limit now _ he2 henum]
        unfold resultsOf
        rfl
      · rw [henum] at hb2; cases hb2
    · rw [henum] at hb1; cases hb1
  · rw [Bool.not_eq_true] at henum
    rw [searchMiss_error_of_enum_false fuse vault st1 query limit now henum,
      searchMiss_error_of_enum_false fuse vault st2 query limit now henum]

theorem contentLoop_single_batch (query : String) (limit : Nat) (files : List VFile)
    (w : List SearchResult) (hsmall : files.length ≤ CONTENT_SEARCH_BATCH_SIZE)
    (hroom : w.length < limit) :
    contentLoop query limit files w =
      (pushResults limit (applyBatch query (w.map (fun r => r.path)) files w).1
        (applyBatch query (w.map (fun r => r.path)) files w).2,
       files.map (fun f => f.path)) := by
  cases files with
  | nil =>
    unfold contentLoop contentLoopAux applyBatch pushResults
    rfl
  | cons x xs =>
    show contentLoopAux query limit (xs.length + 1) (x :: xs) w = _
    unfold contentLoopAux
    rw [if_neg (by omega)]
    dsimp only
    rw [List.take_of_length_le hsmall, List.drop_eq_nil_of_le hsmall]
    have hnil : ∀ res, contentLoopAux query limit xs.length [] res = (res, []) := by
      intro res
      cases xs.length with
      | zero => rfl
      | succ m => rfl
    rw [hnil]
    simp

theorem searchInFiles_empty_query (fuse : FuseAlg) (vault : Vault)
    (st : SearchServiceState) (limit now : Nat) :
    searchInFiles fuse vault st "" limit now = .ok ⟨[], st, []⟩ := by
  unfold searchInFiles
  rw [if_pos rfl]

/-- C1 (amended): only the genuinely empty query short-circuits: for every
vault, state, limit and time, `searchInFiles` on `""` returns the empty
sequence, leaves the state untouched and reads nothing.  (The source's
guard is `query.length < 1`, which a whitespace-only query passes.) -/
theorem c1_empty_query_short_circuit (fuse : FuseAlg) (vault : Vault)
    (st : SearchServiceState) (limit now : Nat) :
    searchInFiles fuse vault st "" limit now = .ok ⟨[], st, []⟩ :=
  searchInFiles_empty_query fuse vault st limit now

/-- C1 counterexample: a whitespace-only query is processed as an
ordinary query: on a one-file vault whose content contains three
consecutive spaces, `search("   ", 5)` reads the file, returns a
non-empty result, and writes both the filename index and the result
cache, contradicting the claim that it returns the empty sequence with
no side effects. -/
theorem c1_counterexample :
    searchInFiles fuse0 vaultA st0 "   " 5 0 =
      .ok ⟨[⟨"a.md", "a", 800, "x   y"⟩],
        ⟨some [⟨"a.md", "a.md", "a"⟩], 0,
          [("   :5", ⟨[⟨"a.md", "a", 800, "x   y"⟩], 0⟩)]⟩,
        ["a.md"]⟩ ∧
    ([(⟨"a.md", "a", 800, "x   y"⟩ : SearchResult)] ≠ ([] : List SearchResult)) ∧
    [("   :5", (⟨[⟨"a.md", "a", 800, "x   y"⟩], 0⟩ : CachedSearchResult))] ≠ st0.searchCache :=
  ⟨rfl, by decide, by decide⟩

/-- C3 (amended): per-document failures are absorbed: whenever document
enumeration succeeds, `searchInFiles` returns normally for every query,
state and limit (failed reads only shrink the result set); but the
source does not guard enumeration itself: when enumeration throws on a
call that reaches it (non-empty query, no fresh cache entry), the error
propagates to the caller instead of degrading to a content-only or
empty search. -/
theorem c3_error_containment (fuse : FuseAlg) (vault : Vault) (st : SearchServiceState)
    (query : String) (limit now : Nat) :
    (vault.enumOk = true → ∃ out, searchInFiles fuse vault st query limit now = .ok out) ∧
    (vault.enumOk = false → query ≠ "" →
      cacheGet st.searchCache (cacheKey query limit) now = none →
      searchInFiles fuse vault st query limit now = .error ()) := by
  constructor
  · intro henum
    by_cases hq : query = ""
    · subst hq
      exact ⟨_, searchInFiles_empty_query fuse vault st limit now⟩
    · match hc : cacheGet st.searchCache (cacheKey query limit) now with
      | some rs => exact ⟨_, searchInFiles_hit hq hc⟩
      | none =>
        rw [searchInFiles_miss hq hc]
        rcases updateFileIndex_ok_of_enum st now henum with ⟨st1, he⟩
        exact ⟨_, searchMiss_spec fuse vault st query limit now st1 he henum⟩
  · intro henum hq hc
    rw [searchInFiles_miss hq hc]
    exact searchMiss_error_of_enum_false fuse vault st query limit now henum

/-- C3 witness: with a working vault the call returns normally. -/
theorem c3_witness :
    (vaultA.enumOk = true) ∧
    (∃ out, searchInFiles fuse0 vaultA st0 "x" 5 0 = .ok out) ∧
    (vaultBad.enumOk = false) ∧ ("x" ≠ "") ∧
    (cacheGet st0.searchCache (cacheKey "x" 5) 0 = none) ∧
    (searchInFiles fuse0 vaultBad st0 "x" 5 0 = .error ()) :=
  ⟨rfl, (c3_error_containment fuse0 vaultA st0 "x" 5 0).1 rfl, rfl, by decide, rfl,
    (c3_error_containment fuse0 vaultBad st0 "x" 5 0).2 rfl (by decide) rfl⟩

/-- C3 counterexample: enumeration failure is not absorbed: the call
throws instead of proceeding with an empty index. -/
theorem c3_counterexample :
    searchInFiles fuse0 vaultBad st0 "x" 5 0 = .error () := rfl

/-- C9: the markup stripper applies the image rule before the link rule,
so an image collapses to its alt text, and markup-free text passes
through unchanged — the spec's two strip test vectors. -/
theorem c9_strip_ordering :
    stripMarkdown "![alt](img.png)" = "alt" ∧
    stripMarkdown "plain text with no markup" = "plain text with no markup" :=
  ⟨by decide, by decide⟩

/-- C8: for every content, query and in-range match index the snippet
extractor returns (it is total by construction), its output contains no
newline character, and it is exactly the trimmed newline-collapsed
excerpt between the clamped line-expanded boundaries, prefixed with
"..." exactly when the excerpt does not start at offset 0 and suffixed
with "..." exactly when it does not reach the document end. -/
theorem c8_snippet_shape (content : String) (matchIndex : Nat) (query : String)
    (h : matchIndex < content.length) :
    (∀ c ∈ (getContextSnippet content matchIndex query).data, c ≠ '\n') ∧
    (getContextSnippet content matchIndex query).data =
      (if 0 < snipStart content matchIndex then dots else []) ++
        snipCore content matchIndex query ++
        (if snipStop content matchIndex query < content.data.length then dots else []) :=
  ⟨getContextSnippet_no_newline content matchIndex query,
    getContextSnippet_decompose content matchIndex query⟩

/-- C8 witness: the spec's boundary example, a match on "needle" with
short context. -/
theorem c8_witness :
    (5 < ("AAAA needle BBBB" : String).length) ∧
    ((∀ c ∈ (getContextSnippet "AAAA needle BBBB" 5 "needle").data, c ≠ '\n') ∧
      (getContextSnippet "AAAA needle BBBB" 5 "needle").data =
        (if 0 < snipStart "AAAA needle BBBB" 5 then dots else []) ++
          snipCore "AAAA needle BBBB" 5 "needle" ++
          (if snipStop "AAAA needle BBBB" 5 "needle" <
              ("AAAA needle BBBB" : String).data.length then dots else [])) :=
  ⟨by decide, c8_snippet_shape "AAAA needle BBBB" 5 "needle" (by decide)⟩

/-- C10: on a cache miss whose filename phase already fills the limit,
the batch loop never starts: no document content is read, every
returned result has an empty snippet, and the result sequence is
exactly the ranked filename-phase list. -/
theorem c10_filename_fills_limit (fuse : FuseAlg) (vault : Vault) (st : SearchServiceState)
    (query : String) (limit now : Nat) (out : SearchOutcome)
    (hq : query ≠ "")
    (hmiss : cacheGet st.searchCache (cacheKey query limit) now = none)
    (hok : searchInFiles fuse vault st query limit now = .ok out)
    (hfull : limit ≤ (missFilenameResults fuse vault st query limit now).length) :
    out.reads = [] ∧ (∀ r ∈ out.results, r.snippet = "") ∧
    out.results = sortByScore (missFilenameResults fuse vault st query limit now) := by
  rw [searchInFiles_miss hq hmiss] at hok
  obtain ⟨henum, st1, he, hout⟩ := searchMiss_ok_inv hok
  have hW := missFilenameResults_eq fuse query limit he
  rw [hW] at hfull ⊢
  have hcore : coreResults fuse vault st1.fileIndex query limit =
      (wResults fuse vault st1.fileIndex query limit, []) := by
    unfold coreResults contentLoop
    exact contentLoopAux_stop query limit _ _ _ hfull
  have hlen : (wResults fuse vault st1.fileIndex query limit).length ≤ limit :=
    wResults_length fuse vault st1.fileIndex query limit
  have hsortlen : (sortByScore (wResults fuse vault st1.fileIndex query limit)).length ≤ limit := by
    have hp : (sortByScore (wResults fuse vault st1.fileIndex query limit)).Perm
        (wResults fuse vault st1.fileIndex query limit) := sortDesc_perm _ _
    rw [hp.length_eq]
    exact hlen
  subst hout
  refine ⟨?_, ?_, ?_⟩
  · rw [hcore]
  · intro r hr
    dsimp only at hr
    rw [hcore] at hr
    have hr2 : r ∈ sortByScore (wResults fuse vault st1.fileIndex query limit) :=
      (List.take_sublist _ _).mem hr
    have hp : (sortByScore (wResults fuse vault st1.fileIndex query limit)).Perm
        (wResults fuse vault st1.fileIndex query limit) := sortDesc_perm _ _
    have hr3 : r ∈ wResults fuse vault st1.fileIndex query limit := hp.mem_iff.mp hr2
    exact wResults_snippet fuse vault st1.fileIndex query limit r hr3
  · dsimp only
    rw [hcore]
    exact List.take_of_length_le hsortlen

/-- C5: every completed cache write keeps the cache within
`MAX_CACHE_SIZE`: a fresh key is appended, and when that pushes the
count past the bound exactly the oldest-inserted entry (the head of
the insertion order) is evicted; overwriting an existing key keeps the
count; and the key incorporates both the query and the limit, so two
limits for one query occupy two distinct entries. -/
theorem c5_cache_eviction (fuse : FuseAlg) (vault : Vault) (st : SearchServiceState)
    (query : String) (limit now : Nat) (out : SearchOutcome)
    (hq : query ≠ "")
    (hmiss : cacheGet st.searchCache (cacheKey query limit) now = none)
    (hlen : st.searchCache.length ≤ MAX_CACHE_SIZE)
    (hok : searchInFiles fuse vault st query limit now = .ok out) :
    (out.state.searchCache.length ≤ MAX_CACHE_SIZE) ∧
    (lookupCache st.searchCache (cacheKey query limit) = none →
      st.searchCache.length = MAX_CACHE_SIZE →
      out.state.searchCache =
        st.searchCache.tail ++ [(cacheKey query limit, ⟨out.results, now⟩)]) ∧
    (lookupCache st.searchCache (cacheKey query limit) = none →
      st.searchCache.length < MAX_CACHE_SIZE →
      out.state.searchCache = st.searchCache ++ [(cacheKey query limit, ⟨out.results, now⟩)]) ∧
    (∀ x, lookupCache st.searchCache (cacheKey query limit) = some x →
      out.state.searchCache.length = st.searchCache.length ∧
      lookupCache out.state.searchCache (cacheKey query limit) = some ⟨out.results, now⟩) ∧
    (∀ n1 n2 : Nat, n1 ≠ n2 → cacheKey query n1 ≠ cacheKey query n2) := by
  rw [searchInFiles_miss hq hmiss] at hok
  obtain ⟨henum, st1, he, hout⟩ := searchMiss_ok_inv hok
  have hcache : st1.searchCache = st.searchCache := updateFileIndex_ok_cache he
  subst hout
  dsimp only
  rw [hcache]
  refine ⟨?_, ?_, ?_, ?_, ?_⟩
  · exact cachePut_length _ hlen
  · intro habs hfull
    exact cachePut_absent_full _ habs hfull
  · intro habs hsmall
    exact cachePut_absent_small _ habs hsmall
  · intro x hpres
    constructor
    · unfold cachePut
      obtain ⟨h1, _⟩ := setCache_present (⟨(sortByScore (coreResults fuse vault
        st1.fileIndex query limit).1).take limit, now⟩ : CachedSearchResult) hpres
      rw [if_neg (by rw [h1]; omega)]
      exact h1
    · exact cachePut_lookup _ hlen
  · intro n1 n2 hne
    exact cacheKey_limit_inj hne

/-- C4: if a call misses the cache at `t1` (storing its result), then
within `CACHE_TTL` a second call for the same query and limit returns
the first call's result sequence verbatim — with no state change and no
reads — even if the backing vault has been mutated in between; once
`CACHE_TTL` has elapsed the entry is treated as absent, so the second
call computes the same results as it would with the entry removed,
reflecting the mutated vault. -/
theorem c4_cache_ttl (fuse : FuseAlg) (vault1 vault2 : Vault) (st : SearchServiceState)
    (query : String) (limit t1 t2 : Nat) (out1 : SearchOutcome)
    (hlen : st.searchCache.length ≤ MAX_CACHE_SIZE)
    (hmiss : cacheGet st.searchCache (cacheKey query limit) t1 = none)
    (h1 : searchInFiles fuse vault1 st query limit t1 = .ok out1)
    (hle : t1 ≤ t2) :
    (t2 - t1 < CACHE_TTL →
      searchInFiles fuse vault2 out1.state query limit t2 =
        .ok ⟨out1.results, out1.state, []⟩) ∧
    (CACHE_TTL ≤ t2 - t1 →
      resultsOf (searchInFiles fuse vault2 out1.state query limit t2) =
        resultsOf (searchInFiles fuse vault2
          ⟨out1.state.fileIndex, out1.state.lastIndexUpdate,
            removeKey out1.state.searchCache (cacheKey query limit)⟩ query limit t2)) := by
  by_cases hq : query = ""
  · subst hq
    rw [searchInFiles_empty_query fuse vault1 st limit t1] at h1
    have hout1 : out1 = ⟨[], st, []⟩ := (Except.ok.inj h1).symm
    subst hout1
    constructor
    · intro _
      exact searchInFiles_empty_query fuse vault2 st limit t2
    · intro _
      rw [searchInFiles_empty_query, searchInFiles_empty_query]
      rfl
  · rw [searchInFiles_miss hq hmiss] at h1
    obtain ⟨henum, st1, he, hout⟩ := searchMiss_ok_inv h1
    have hcache : st1.searchCache = st.searchCache := updateFileIndex_ok_cache he
    have hlook : lookupCache out1.state.searchCache (cacheKey query limit) =
        some ⟨out1.results, t1⟩ := by
      rw [hout]
      dsimp only
      rw [hcache]
      exact cachePut_lookup _ hlen
    constructor
    · intro httl
      have hget : cacheGet out1.state.searchCache (cacheKey query limit) t2 =
          some out1.results := by
        unfold cacheGet
        rw [hlook]
        dsimp only
        rw [if_pos (by omega)]
      exact searchInFiles_hit hq hget
    · intro hexp
      have hget1 : cacheGet out1.state.searchCache (cacheKey query limit) t2 = none := by
        unfold cacheGet
        rw [hlook]
        dsimp only
        rw [if_neg (by omega)]
      have hget2 : cacheGet (removeKey out1.state.searchCache (cacheKey query limit))
          (cacheKey query limit) t2 = none := by
        unfold cacheGet
        rw [removeKey_lookup_none]
      rw [searchInFiles_miss hq hget1]
      rw [searchInFiles_miss hq (by exact hget2)]
      exact searchMiss_results_congr fuse vault2 query limit t2 rfl rfl

/-- C7: every result sequence `searchInFiles` returns from a
well-formed state is sorted by non-increasing score and no longer than
the limit; on a cache miss it is exactly the stable descending sort of
the working list truncated to the limit, and that sort is stable:
within each score class it preserves the working list's order, as the
filtered subsequence equation states. -/
theorem c7_ranking (fuse : FuseAlg) (vault : Vault) (st : SearchServiceState)
    (query : String) (limit now : Nat) (out : SearchOutcome)
    (hwf : CacheWF st)
    (hok : searchInFiles fuse vault st query limit now = .ok out) :
    (sortedByScore out.results ∧ out.results.length ≤ limit) ∧
    (query ≠ "" → cacheGet st.searchCache (cacheKey query limit) now = none →
      out.results =
        (sortByScore (missWorkingResults fuse vault st query limit now)).take limit) ∧
    (∀ s : ℚ,
      (sortByScore (missWorkingResults fuse vault st query limit now)).filter
          (fun r => decide (r.score = s)) =
        (missWorkingResults fuse vault st query limit now).filter
          (fun r => decide (r.score = s))) := by
  refine ⟨?_, ?_, fun s => filter_sortByScore _ s⟩
  · by_cases hq : query = ""
    · subst hq
      rw [searchInFiles_empty_query fuse vault st limit now] at hok
      have hout : out = ⟨[], st, []⟩ := (Except.ok.inj hok).symm
      subst hout
      exact ⟨List.Pairwise.nil, by simp⟩
    · match hc : cacheGet st.searchCache (cacheKey query limit) now with
      | some rs =>
        rw [searchInFiles_hit hq hc] at hok
        have hout : out = ⟨rs, st, []⟩ := (Except.ok.inj hok).symm
        subst hout
        unfold cacheGet at hc
        match hl : lookupCache st.searchCache (cacheKey query limit) with
        | some e =>
          rw [hl] at hc
          dsimp only at hc
          by_cases hfresh : now - e.timestamp < CACHE_TTL
          · rw [if_pos hfresh] at hc
            obtain ⟨hsort, hle, _⟩ := hwf query limit e hl
            cases hc
            exact ⟨hsort, hle⟩
          · rw [if_neg hfresh] at hc; cases hc
        | none => rw [hl] at hc; exact absurd hc (by simp)
      | none =>
        rw [searchInFiles_miss hq hc] at hok
        obtain ⟨henum, st1, he, hout⟩ := searchMiss_ok_inv hok
        subst hout
        dsimp only
        constructor
        · unfold sortedByScore
          exact List.Pairwise.sublist (List.take_sublist _ _) (sortByScore_sorted _)
        · exact List.length_take_le _ _
  · intro hq hc
    rw [searchInFiles_miss hq hc] at hok
    obtain ⟨henum, st1, he, hout⟩ := searchMiss_ok_inv hok
    subst hout
    dsimp only
    rw [missWorkingResults_eq fuse query limit he]

/-- C6: from a well-formed state, with a fuzzy matcher that lists each
item at most once and a vault with unique paths, no two entries of a
returned result sequence share a path: filename hits are tracked in the
found-set, content candidates are checked against it, and cached
sequences were deduplicated when stored. -/
theorem c6_dedup (fuse : FuseAlg) (vault : Vault) (st : SearchServiceState)
    (query : String) (limit now : Nat) (out : SearchOutcome)
    (hfuse : FuseWF fuse)
    (hvault : (vault.files.map (fun f => f.path)).Nodup)
    (hwf : CacheWF st)
    (hok : searchInFiles fuse vault st query limit now = .ok out) :
    nodupPaths out.results := by
  by_cases hq : query = ""
  · subst hq
    rw [searchInFiles_empty_query fuse vault st limit now] at hok
    have hout : out = ⟨[], st, []⟩ := (Except.ok.inj hok).symm
    subst hout
    simp [nodupPaths]
  · match hc : cacheGet st.searchCache (cacheKey query limit) now with
    | some rs =>
      rw [searchInFiles_hit hq hc] at hok
      have hout : out = ⟨rs, st, []⟩ := (Except.ok.inj hok).symm
      subst hout
      unfold cacheGet at hc
      match hl : lookupCache st.searchCache (cacheKey query limit) with
      | some e =>
        rw [hl] at hc
        dsimp only at hc
        by_cases hfresh : now - e.timestamp < CACHE_TTL
        · rw [if_pos hfresh] at hc
          obtain ⟨_, _, hnd⟩ := hwf query limit e hl
          cases hc
          exact hnd
        · rw [if_neg hfresh] at hc; cases hc
      | none => rw [hl] at hc; exact absurd hc (by simp)
    | none =>
      rw [searchInFiles_miss hq hc] at hok
      obtain ⟨henum, st1, he, hout⟩ := searchMiss_ok_inv hok
      subst hout
      dsimp only
      obtain ⟨hnd, _⟩ := coreResults_nodup fuse vault st1.fileIndex query limit hfuse hvault
      unfold nodupPaths at hnd ⊢
      have hp : (sortByScore (coreResults fuse vault st1.fileIndex query limit).1).Perm
          (coreResults fuse vault st1.fileIndex query limit).1 := sortDesc_perm _ _
      have hnd2 : (List.map (fun r => r.path)
          (sortByScore (coreResults fuse vault st1.fileIndex query limit).1)).Nodup :=
        ((hp.map (fun r => r.path)).nodup_iff).mpr hnd
      exact List.Nodup.sublist
        ((List.take_sublist limit
          (sortByScore (coreResults fuse vault st1.fileIndex query limit).1)).map
            (fun r : SearchResult => r.path)) hnd2

/-- C2 (amended): consider a cache-miss call over a vault with unique
paths, a conforming fuzzy matcher, and a query that is not whitespace
only; let F be a document emitted by the filename phase (it is among
the first `limit` fuzzy candidates), suppose the filename phase leaves
room below the limit and the vault fits in one content batch (so the
scan reaches every file), and suppose F's content reads successfully
and its STRIPPED text contains the query case-insensitively (this is
what the scanner matches on — the raw text is not consulted).  Then
the returned sequence carries exactly one entry for F, whose score is
at least the content-match constant 800 and whose snippet is
non-empty. -/
theorem c2_merge_amended (fuse : FuseAlg) (vault : Vault) (st : SearchServiceState)
    (query : String) (limit now : Nat) (out : SearchOutcome) (F : VFile) (body : String)
    (idx : Nat) (e0 : SearchResult)
    (hfuse : FuseWF fuse)
    (hvault : (vault.files.map (fun f => f.path)).Nodup)
    (hqws : ∃ ch ∈ toLowerL query.data, jsWS ch = false)
    (hmiss : cacheGet st.searchCache (cacheKey query limit) now = none)
    (hsmall : vault.files.length ≤ CONTENT_SEARCH_BATCH_SIZE)
    (hroom : (missFilenameResults fuse vault st query limit now).length < limit)
    (hFmem : F ∈ vault.files)
    (hbody : F.content = some body)
    (hmatch : occursIdx (toLowerL query.data) (toLowerL (stripMarkdown body).data) = some idx)
    (hhit : findByPath F.path (missFilenameResults fuse vault st query limit now) = some e0)
    (hok : searchInFiles fuse vault st query limit now = .ok out) :
    (out.results.filter (fun r => decide (r.path = F.path))).length = 1 ∧
    ∀ r ∈ out.results, r.path = F.path → 800 ≤ r.score ∧ r.snippet ≠ "" := by
  have hq : query ≠ "" := by
    obtain ⟨ch, hch, _⟩ := hqws
    intro hqe
    rw [hqe] at hch
    simp [toLowerL] at hch
  rw [searchInFiles_miss hq hmiss] at hok
  obtain ⟨henum, st1, he, hout⟩ := searchMiss_ok_inv hok
  have hWeq := missFilenameResults_eq fuse query limit he
  rw [hWeq] at hroom hhit
  obtain ⟨he0mem, he0path⟩ := findByPath_mem hhit
  have he0snip : e0.snippet = "" :=
    wResults_snippet fuse vault st1.fileIndex query limit e0 he0mem
  have hsnip : fileSnippet query F =
      some (getContextSnippet (stripMarkdown body) idx query) := by
    unfold fileSnippet
    rw [hbody]
    dsimp only
    rw [hmatch]
  have hsne : getContextSnippet (stripMarkdown body) idx query ≠ "" :=
    getContextSnippet_ne_empty (stripMarkdown body) query hmatch hqws
  have hperm := sortByMtime_perm vault.files
  have hfiles_len : (sortByMtime vault.files).length ≤ CONTENT_SEARCH_BATCH_SIZE := by
    rw [hperm.length_eq]; exact hsmall
  have hFmem' : F ∈ sortByMtime vault.files := hperm.mem_iff.mpr hFmem
  have hfnodup : ((sortByMtime vault.files).map (fun f => f.path)).Nodup :=
    ((hperm.map (fun f => f.path)).nodup_iff).mpr hvault
  have hloop := contentLoop_single_batch query limit (sortByMtime vault.files)
    (wResults fuse vault st1.fileIndex query limit) hfiles_len hroom
  have hcore1 : (coreResults fuse vault st1.fileIndex query limit).1 =
      pushResults limit
        (applyBatch query ((wResults fuse vault st1.fileIndex query limit).map
          (fun r => r.path)) (sortByMtime vault.files)
          (wResults fuse vault st1.fileIndex query limit)).1
        (applyBatch query ((wResults fuse vault st1.fileIndex query limit).map
          (fun r => r.path)) (sortByMtime vault.files)
          (wResults fuse vault st1.fileIndex query limit)).2 := by
    unfold coreResults
    rw [hloop]
  have hFW : F.path ∈ (wResults fuse vault st1.fileIndex query limit).map
      (fun r => r.path) := by
    rw [← he0path]
    exact List.mem_map_of_mem _ he0mem
  have hcont : ((wResults fuse vault st1.fileIndex query limit).map
      (fun r => r.path)).contains F.path = true := by
    show List.elem F.path ((wResults fuse vault st1.fileIndex query limit).map
      (fun r => r.path)) = true
    exact List.elem_iff.mpr hFW
  have hmerge := applyBatch_merge query
    ((wResults fuse vault st1.fileIndex query limit).map (fun r => r.path))
    (sortByMtime vault.files) (wResults fuse vault st1.fileIndex query limit)
    F (getContextSnippet (stripMarkdown body) idx query) e0
    hfnodup hFmem' hsnip hcont hhit he0snip
  obtain ⟨k, hk⟩ := pushResults_eq_append limit
    (applyBatch query ((wResults fuse vault st1.fileIndex query limit).map
      (fun r => r.path)) (sortByMtime vault.files)
      (wResults fuse vault st1.fileIndex query limit)).2
    (applyBatch query ((wResults fuse vault st1.fileIndex query limit).map
      (fun r => r.path)) (sortByMtime vault.files)
      (wResults fuse vault st1.fileIndex query limit)).1
  have hfind2 : findByPath F.path (coreResults fuse vault st1.fileIndex query limit).1 =
      some ⟨e0.path, e0.name, (if e0.score < 800 then 800 else e0.score),
        getContextSnippet (stripMarkdown body) idx query⟩ := by
    rw [hcore1, hk]
    exact findByPath_append_left hmerge _
  obtain ⟨he1mem, he1path⟩ := findByPath_mem hfind2
  obtain ⟨hnd, hlen⟩ := coreResults_nodup fuse vault st1.fileIndex query limit hfuse hvault
  subst hout
  dsimp only
  have hsortperm : (sortByScore (coreResults fuse vault st1.fileIndex query limit).1).Perm
      (coreResults fuse vault st1.fileIndex query limit).1 := sortDesc_perm _ _
  have hfinal_eq : List.take limit
      (sortByScore (coreResults fuse vault st1.fileIndex query limit).1) =
      sortByScore (coreResults fuse vault st1.fileIndex query limit).1 :=
    List.take_of_length_le (by rw [hsortperm.length_eq]; exact hlen)
  have he1fin : (⟨e0.path, e0.name, (if e0.score < 800 then 800 else e0.score),
      getContextSnippet (stripMarkdown body) idx query⟩ : SearchResult) ∈
      sortByScore (coreResults fuse vault st1.fileIndex query limit).1 :=
    hsortperm.mem_iff.mpr he1mem
  have hndfin : nodupPaths (sortByScore (coreResults fuse vault st1.fileIndex query limit).1) := by
    unfold nodupPaths at hnd ⊢
    exact ((hsortperm.map (fun r => r.path)).nodup_iff).mpr hnd
  constructor
  · rw [hfinal_eq]
    have hone := nodupPaths_filter_one hndfin he1fin
    rw [he1path] at hone
    exact hone
  · intro r hrmem hrpath
    rw [hfinal_eq] at hrmem
    have hre : r = ⟨e0.path, e0.name, (if e0.score < 800 then 800 else e0.score),
        getContextSnippet (stripMarkdown body) idx query⟩ :=
      nodupPaths_unique hndfin hrmem he1fin (by rw [hrpath, he1path])
    subst hre
    constructor
    · show 800 ≤ (if e0.score < 800 then (800 : ℚ) else e0.score)
      by_cases hsc : e0.score < 800
      · rw [if_pos hsc]
      · rw [if_neg hsc]
        exact le_of_not_lt hsc
    · exact hsne

/-- C2 counterexample: `fileH` is named exactly like the query, so the
fuzzy matcher returns it with a perfect distance, and its raw content
contains the query as a literal case-insensitive substring; but the
scanner searches the stripped text, in which the italic markup of the
content has been rewritten, so no content match fires: the single
returned entry for the document keeps an empty snippet, contradicting
the claim. -/
theorem c2_counterexample :
    occursIdx (toLowerL "_hi_".data) (toLowerL "say _hi_ now".data) = some 4 ∧
    fileH.content = some "say _hi_ now" ∧
    resultsOf (searchInFiles fuseH vaultH st0 "_hi_" 5 0) =
      some [⟨"_hi_.md", "_hi_", (1 - 0) * 1000, ""⟩] :=
  ⟨by decide, rfl, rfl⟩

theorem st0_cacheWF : CacheWF st0 := by
  intro q n e h
  simp [st0, lookupCache] at h

theorem fuse0_wf : FuseWF fuse0 := by
  intro idx q
  show (List.map Prod.fst ([] : List (String × ℚ))).Nodup
  decide

theorem fuseM_wf : FuseWF fuseM := by
  intro idx q
  show (List.map Prod.fst [(("m.md" : String), (0 : ℚ))]).Nodup
  decide

/-- C2 witness: a document matched both by filename and by (stripped)
content carries a merged entry with a non-empty snippet. -/
theorem c2_witness :
    (outM.results.filter (fun r => decide (r.path = fileM.path))).length = 1 ∧
    ∀ r ∈ outM.results, r.path = fileM.path → 800 ≤ r.score ∧ r.snippet ≠ "" :=
  c2_merge_amended fuseM vaultM st0 "hello" 5 0 outM fileM "hello world" 0
    ⟨"m.md", "m", (1 - 0) * 1000, ""⟩
    fuseM_wf (by decide) (by decide) rfl (by decide) (by decide)
    (by decide) rfl (by decide) rfl rfl

/-- C4 witness: a second call within the TTL over a mutated (emptied)
vault returns the first call's results verbatim. -/
theorem c4_witness :
    searchInFiles fuse0 vaultEmpty outX.state "x" 5 100 =
      .ok ⟨outX.results, outX.state, []⟩ :=
  (c4_cache_ttl fuse0 vaultA vaultEmpty st0 "x" 5 0 100 outX
    (by decide) rfl rfl (by decide)).1 (by decide)

/-- C5 witness: the cache write of a fresh key on a small cache appends
the entry and respects the size bound. -/
theorem c5_witness :
    (outX.state.searchCache.length ≤ MAX_CACHE_SIZE) ∧
    (lookupCache st0.searchCache (cacheKey "x" 5) = none →
      st0.searchCache.length < MAX_CACHE_SIZE →
      outX.state.searchCache = st0.searchCache ++ [(cacheKey "x" 5, ⟨outX.results, 0⟩)]) :=
  have h := c5_cache_eviction fuse0 vaultA st0 "x" 5 0 outX
    (by decide) rfl (by decide) rfl
  ⟨h.1, h.2.2.1⟩

/-- C6 witness: the returned sequence of the sample search has no
repeated path. -/
theorem c6_witness : nodupPaths outX.results :=
  c6_dedup fuse0 vaultA st0 "x" 5 0 outX fuse0_wf (by decide) st0_cacheWF rfl

/-- C7 witness: the returned sequence of the sample search is sorted
and within the limit. -/
theorem c7_witness :
    (sortedByScore outX.results ∧ outX.results.length ≤ 5) :=
  (c7_ranking fuse0 vaultA st0 "x" 5 0 outX st0_cacheWF rfl).1

/-- C10 witness: with a single filename hit and limit 1 the content
scan never starts and nothing is read. -/
theorem c10_witness :
    outC10.reads = [] ∧ (∀ r ∈ outC10.results, r.snippet = "") ∧
    outC10.results = sortByScore (missFilenameResults fuseH vaultH st0 "_hi_" 1 0) :=
  c10_filename_fills_limit fuseH vaultH st0 "_hi_" 1 0 outC10
    (by decide) rfl rfl (by decide)
